import Mathlib

/-!
Verification of a terminal-UI / line-buffer text editor (C++ sources:
`terminal.hpp`, `controls.hpp`, `controls.cpp`) against its natural-language
specification.  The C++ code is shallowly embedded: `std::string` becomes
`List Char`, `std::vector<std::string>` becomes `List (List Char)`, machine
integers become `Nat` (or `Int` where the C++ uses signed arithmetic on
possibly-negative values).  Cursor/scroll bookkeeping fields that never
influence the text or grid contents examined by the claims are omitted; each
such omission is noted at the definition it concerns.
-/

set_option maxRecDepth 4000

/-! ### Document model: `Editor` in `controls.hpp`

The document is `m_lines : std::vector<std::string>`, modelled as
`List (List Char)`.  Cursor, scrolling, selection, status-bar and edit-box
fields are omitted: `insertTextInternal`, `deleteTextInternal`, `getTextAt`
and `getTextLength` read and write only `m_lines` (the cursor updates they
also perform touch no line content). -/

/-- Loop body of `Editor::flatPosToLinePos` (controls.hpp).  Walks the lines,
subtracting `length + 1` per line; `fb` is the fall-through result
`(m_lines.size() - 1, m_lines.back().length())` used when the position is
beyond the end of the text. -/
def flatPosToLinePosAux (fb : Nat × Nat) : List (List Char) → Nat → Nat → Nat × Nat
  | [], _, _ => fb
  | l :: rest, i, p =>
    if p ≤ l.length then (i, p)
    else flatPosToLinePosAux fb rest (i + 1) (p - (l.length + 1))

/-- `Editor::flatPosToLinePos` (controls.hpp): convert a flat offset to a
(line, column) pair. -/
def flatPosToLinePos (lines : List (List Char)) (flatPos : Nat) : Nat × Nat :=
  flatPosToLinePosAux (lines.length - 1, (lines.getLastD []).length) lines 0 flatPos

/-- `Editor::getTextLength` (controls.hpp): sum of line lengths plus one per
newline (no newline after the last line). -/
def getTextLength : List (List Char) → Nat
  | [] => 0
  | [l] => l.length
  | l :: rest => l.length + 1 + getTextLength rest

/-- Line lookup `m_lines[i]`; out-of-range access is undefined behaviour in
C++ and never exercised by the proved theorems, the default `[]` is arbitrary. -/
def lineAt (lines : List (List Char)) (i : Nat) : List Char :=
  lines.getD i []

/-- Middle-lines loop of `Editor::getTextAt` (controls.hpp):
`for (i = startLine + 1; i < endLine && i < m_lines.size(); i++)
   result += newline + m_lines[i]`. -/
def getTextAtMid (lines : List (List Char)) (el : Nat) (i : Nat) : List Char :=
  if i < el ∧ i < lines.length then
    ('\n' :: lineAt lines i) ++ getTextAtMid lines el (i + 1)
  else []
termination_by el - i
decreasing_by simp_wf; omega

/-- `Editor::getTextAt` (controls.hpp): read `length` flat characters starting
at flat position `pos`, with an explicit newline between lines. -/
def getTextAt (lines : List (List Char)) (pos len : Nat) : List Char :=
  let sl := flatPosToLinePos lines pos
  let el := flatPosToLinePos lines (pos + len)
  if sl.1 = el.1 then
    if sl.1 < lines.length then
      ((lineAt lines sl.1).drop sl.2).take (el.2 - sl.2)
    else []
  else
    if sl.1 < lines.length then
      (lineAt lines sl.1).drop sl.2 ++
      getTextAtMid lines el.1 (sl.1 + 1) ++
      (if el.1 < lines.length then '\n' :: (lineAt lines el.1).take el.2 else [])
    else []

/-- Newline split loop of `Editor::insertTextInternal` (controls.hpp): split
`text` at each newline; always produces at least one fragment. -/
def splitNL : List Char → List (List Char)
  | [] => [[]]
  | c :: rest =>
    if c = '\n' then [] :: splitNL rest
    else
      match splitNL rest with
      | [] => [[c]]
      | l :: ls => (c :: l) :: ls

/-- Middle-lines insertion loop of `Editor::insertTextInternal` (controls.hpp):
`for (i = 1; i < newLines.size() - 1; i++)
   m_lines.insert(m_lines.begin() + line + i, newLines[i])`.
Structural recursion on a fuel counter: the loop runs exactly while
`i < nls.length - 1`, so fuel `nls.length - 1 - i` makes the fuel case split
and the loop guard coincide. -/
def insertMidLoopF (line : Nat) (nls : List (List Char)) :
    Nat → List (List Char) → Nat → List (List Char)
  | 0, ls, _ => ls
  | fuel + 1, ls, i =>
    if i < nls.length - 1 then
      insertMidLoopF line nls fuel (ls.insertIdx (line + i) (nls.getD i [])) (i + 1)
    else ls

def insertMidLoop (line : Nat) (nls : List (List Char)) (ls : List (List Char))
    (i : Nat) : List (List Char) :=
  insertMidLoopF line nls (nls.length - 1 - i) ls i

/-- `Editor::insertTextInternal` (controls.hpp), restricted to its effect on
`m_lines` (the cursor-update tail of the C++ function only moves the cursor). -/
def insertTextInternal (lines : List (List Char)) (pos : Nat) (text : List Char) :
    List (List Char) :=
  let lp := flatPosToLinePos lines pos
  let line := lp.1
  let linePos := lp.2
  if ¬ text.contains '\n' then
    if line < lines.length then
      lines.set line (((lineAt lines line).take linePos) ++ text ++
                      ((lineAt lines line).drop linePos))
    else lines
  else
    let newLines := splitNL text
    if line < lines.length then
      let firstPart := (lineAt lines line).take linePos
      let lastPart := (lineAt lines line).drop linePos
      let step1 := lines.set line (firstPart ++ newLines.headD [])
      let step2 := insertMidLoop line newLines step1 1
      step2.insertIdx (line + newLines.length - 1) (newLines.getLastD [] ++ lastPart)
    else lines

/-! ### Line reconciliation diff: `computeDiff` in `controls.cpp` -/

/-- `DiffOpType` enum (controls.hpp). -/
inductive DiffOpType where
  | NONE
  | INSERT
  | DELETE
  | REPLACE
deriving DecidableEq

/-- `DiffOp` struct (controls.hpp); default-constructed as `NONE` at position 0
with empty texts. -/
structure DiffOp where
  type : DiffOpType
  position : Nat
  oldText : List Char
  newText : List Char
deriving DecidableEq

/-- Common-prefix loop of `computeDiff` (controls.cpp). -/
def commonPrefixLen : List Char → List Char → Nat
  | a :: as, b :: bs => if a = b then 1 + commonPrefixLen as bs else 0
  | _, _ => 0

/-- Common-suffix loop of `computeDiff` (controls.cpp): decrement
`oldSuffixStart`/`newSuffixStart` while both exceed the prefix length and the
preceding characters agree.  Structural recursion on `oldSuffixStart`; the
`getD` default is never read because the guard bounds the index. -/
def suffixLoop (oldT newT : List Char) (p : Nat) : Nat → Nat → Nat × Nat
  | 0, ns => (0, ns)
  | os + 1, ns =>
    if p < os + 1 ∧ p < ns ∧ oldT.getD os ' ' = newT.getD (ns - 1) ' '
    then suffixLoop oldT newT p os (ns - 1)
    else (os + 1, ns)

/-- `computeDiff` (controls.cpp): minimal prefix/suffix diff between two
versions of a line, classified as a single NONE/INSERT/DELETE/REPLACE edit. -/
def computeDiff (oldT newT : List Char) : DiffOp :=
  if oldT = newT then ⟨.NONE, 0, [], []⟩
  else
    let p := commonPrefixLen oldT newT
    let s := suffixLoop oldT newT p oldT.length newT.length
    let oldSufStart := s.1
    let newSufStart := s.2
    if p = oldSufStart then
      ⟨.INSERT, p, [], (newT.drop p).take (newSufStart - p)⟩
    else if p = newSufStart then
      ⟨.DELETE, p, (oldT.drop p).take (oldSufStart - p), []⟩
    else
      ⟨.REPLACE, p, (oldT.drop p).take (oldSufStart - p),
                    (newT.drop p).take (newSufStart - p)⟩

/-- Application of a `DiffOp` to a flat string, following the spec wording of
claim C2: NONE is a no-op, INSERT splices `newText` at `position`, DELETE
removes `oldText` at `position`, REPLACE substitutes `newText` for `oldText`
at `position`. -/
def applyDiff (oldT : List Char) (d : DiffOp) : List Char :=
  match d.type with
  | .NONE => oldT
  | .INSERT => oldT.take d.position ++ d.newText ++ oldT.drop d.position
  | .DELETE => oldT.take d.position ++ oldT.drop (d.position + d.oldText.length)
  | .REPLACE => oldT.take d.position ++ d.newText ++
                oldT.drop (d.position + d.oldText.length)

/-! ### Undo/redo engine: `UndoableEdit` in `controls.hpp`

The engine is modelled over the `EditBox` subclass, whose text is one flat
`std::string` and whose `insertTextInternal` / `deleteTextInternal` /
`getTextAt` / `getTextLength` are plain string splices (controls.hpp).
`EditBox::setCursorPos`, called by both internals, moves only the cursor and
scroll index and is omitted.  `Command::getSize()` in the source is
`sizeof(*this)` plus `std::string` capacities — platform-dependent values —
so every theorem is parametric in an arbitrary size function `sz`. -/

/-- The three `UndoableEdit::Command` subclasses (controls.hpp). -/
inductive EditCmd where
  | insertCmd (pos : Nat) (text : List Char)
  | deleteCmd (pos : Nat) (deletedText : List Char)
  | replaceCmd (pos : Nat) (oldText newText : List Char)
deriving DecidableEq

/-- `EditBox::insertTextInternal` (controls.hpp): splice `text` at `pos` when
`pos <= m_text.length()`, else do nothing. -/
def ebInsertInternal (pos : Nat) (text : List Char) (s : List Char) : List Char :=
  if pos ≤ s.length then s.take pos ++ text ++ s.drop pos else s

/-- `EditBox::deleteTextInternal` (controls.hpp): erase
`min(length, m_text.length() - pos)` characters at `pos` when
`pos < m_text.length()`, else do nothing. -/
def ebDeleteInternal (pos len : Nat) (s : List Char) : List Char :=
  if pos < s.length then s.take pos ++ s.drop (pos + min len (s.length - pos)) else s

/-- `EditBox::getTextAt` (controls.hpp). -/
def ebGetTextAt (pos len : Nat) (s : List Char) : List Char :=
  if pos < s.length then (s.drop pos).take (min len (s.length - pos)) else []

/-- `Command::execute` for the three command classes (controls.hpp):
`ReplaceTextCommand::execute` is delete-then-insert. -/
def execCmd : EditCmd → List Char → List Char
  | .insertCmd p t, s => ebInsertInternal p t s
  | .deleteCmd p d, s => ebDeleteInternal p d.length s
  | .replaceCmd p o n, s => ebInsertInternal p n (ebDeleteInternal p o.length s)

/-- `Command::undo` for the three command classes (controls.hpp):
`ReplaceTextCommand::undo` deletes the new text and re-inserts the old. -/
def undoCmd : EditCmd → List Char → List Char
  | .insertCmd p t, s => ebDeleteInternal p t.length s
  | .deleteCmd p d, s => ebInsertInternal p d s
  | .replaceCmd p o n, s => ebInsertInternal p o (ebDeleteInternal p n.length s)

/-- State of an `UndoableEdit`-derived `EditBox` (controls.hpp), restricted to
the text and the undo machinery fields. -/
structure EditState where
  text : List Char
  undoStack : List EditCmd
  redoStack : List EditCmd
  maxUndoLevels : Nat
  maxUndoSize : Nat
  currentUndoSize : Nat
  undoEnabled : Bool
deriving DecidableEq

/-- Trim loop of `UndoableEdit::executeCommand` (controls.hpp): evict from the
front of the undo stack while it is nonempty and over either limit.
`m_currentUndoSize` is `size_t`; under the accounting invariant the
subtraction never underflows, so truncated `Nat` subtraction agrees with it. -/
def trimLoop (maxLevels maxSize : Nat) (sz : EditCmd → Nat) :
    List EditCmd → Nat → List EditCmd × Nat
  | [], cur => ([], cur)
  | c :: rest, cur =>
    if (c :: rest).length > maxLevels ∨ cur > maxSize
    then trimLoop maxLevels maxSize sz rest (cur - sz c)
    else (c :: rest, cur)

/-- `UndoableEdit::executeCommand` (controls.hpp): run the command; if undo is
enabled, account its size, push it, clear the redo stack (subtracting each
cleared command's size), then trim the undo stack from the front. -/
def executeCommand (sz : EditCmd → Nat) (c : EditCmd) (st : EditState) : EditState :=
  let text1 := execCmd c st.text
  if st.undoEnabled then
    let cur1 := st.currentUndoSize + sz c
    let undo1 := st.undoStack ++ [c]
    let cur2 := st.redoStack.foldl (fun cur d => cur - sz d) cur1
    let t := trimLoop st.maxUndoLevels st.maxUndoSize sz undo1 cur2
    { st with text := text1, undoStack := t.1, redoStack := [], currentUndoSize := t.2 }
  else { st with text := text1 }

/-- `UndoableEdit::canUndo` / `canRedo` (controls.hpp). -/
def canUndo (st : EditState) : Bool := st.undoEnabled && !st.undoStack.isEmpty

def canRedo (st : EditState) : Bool := st.undoEnabled && !st.redoStack.isEmpty

/-- `UndoableEdit::undo` (controls.hpp): pop the newest undo command,
reverse-apply it, move it to the redo stack.  The net size-counter update
`cur - sz c + sz c` mirrors the two `size_t` updates in the source; they agree
with `Nat` truncation whenever the accounting invariant holds. -/
def undoStep (sz : EditCmd → Nat) (st : EditState) : EditState :=
  if canUndo st then
    let c := st.undoStack.getLastD (.insertCmd 0 [])
    { st with
      text := undoCmd c st.text
      undoStack := st.undoStack.dropLast
      redoStack := st.redoStack ++ [c]
      currentUndoSize := st.currentUndoSize - sz c + sz c }
  else st

/-- `UndoableEdit::redo` (controls.hpp): pop the newest redo command,
re-execute it, move it back to the undo stack. -/
def redoStep (sz : EditCmd → Nat) (st : EditState) : EditState :=
  if canRedo st then
    let c := st.redoStack.getLastD (.insertCmd 0 [])
    { st with
      text := execCmd c st.text
      undoStack := st.undoStack ++ [c]
      redoStack := st.redoStack.dropLast
      currentUndoSize := st.currentUndoSize - sz c + sz c }
  else st

/-- Repeated `undo()` until `canUndo()` is false.  Each successful step pops
one undo-stack entry, so `st.undoStack.length` rounds of fuel always reach the
fixed point. -/
def undoAllFuel (sz : EditCmd → Nat) : Nat → EditState → EditState
  | 0, st => st
  | n + 1, st => if canUndo st then undoAllFuel sz n (undoStep sz st) else st

def undoAll (sz : EditCmd → Nat) (st : EditState) : EditState :=
  undoAllFuel sz st.undoStack.length st

/-- Repeated `redo()` until `canRedo()` is false. -/
def redoAllFuel (sz : EditCmd → Nat) : Nat → EditState → EditState
  | 0, st => st
  | n + 1, st => if canRedo st then redoAllFuel sz n (redoStep sz st) else st

def redoAll (sz : EditCmd → Nat) (st : EditState) : EditState :=
  redoAllFuel sz st.redoStack.length st

/-- The three public mutators of `UndoableEdit` (controls.hpp): `insertText`,
`deleteText`, `replaceText`. -/
inductive PubOp where
  | insertOp (pos : Nat) (text : List Char)
  | deleteOp (pos len : Nat)
  | replaceOp (pos len : Nat) (text : List Char)

/-- The command a public mutator hands to `executeCommand`, `none` when its
guard rejects the call (controls.hpp: `insertText` requires
`pos <= getTextLength()`; `deleteText` requires `pos < getTextLength()` and a
nonempty extracted text; `replaceText` requires `pos < getTextLength()`). -/
def pubCmd (st : EditState) : PubOp → Option EditCmd
  | .insertOp p t => if p ≤ st.text.length then some (.insertCmd p t) else none
  | .deleteOp p n =>
    if p < st.text.length then
      let d := ebGetTextAt p n st.text
      if d ≠ [] then some (.deleteCmd p d) else none
    else none
  | .replaceOp p n t =>
    if p < st.text.length then some (.replaceCmd p (ebGetTextAt p n st.text) t)
    else none

def applyPubOp (sz : EditCmd → Nat) (st : EditState) (op : PubOp) : EditState :=
  match pubCmd st op with
  | some c => executeCommand sz c st
  | none => st

def runOps (sz : EditCmd → Nat) (st : EditState) (ops : List PubOp) : EditState :=
  ops.foldl (applyPubOp sz) st

/-- Decidable check that a run of public operations never triggers eviction:
at each recorded command, the stack grown by one entry and the updated size
counter already satisfy both limits, so the trim loop of `executeCommand`
removes nothing. -/
def noEvictOps (sz : EditCmd → Nat) : EditState → List PubOp → Bool
  | _, [] => true
  | st, op :: rest =>
    (match pubCmd st op with
     | none => true
     | some c =>
       !st.undoEnabled ||
       (decide (st.undoStack.length + 1 ≤ st.maxUndoLevels) &&
        decide (st.redoStack.foldl (fun cur d => cur - sz d)
                  (st.currentUndoSize + sz c) ≤ st.maxUndoSize))) &&
    noEvictOps sz (applyPubOp sz st op) rest

/-! ### UTF-8 codec: `decode_utf8` / `encode_utf8` in `terminal.hpp`

Bytes are `Nat` values below 256; code points are `Nat`.  `encode_utf8`
appends to an `OutputBuffer` in the source; here it returns the appended
bytes.  `decode_utf8` iterates a NUL-terminated C string, so the model stops
at a zero byte as well as at the end of the list; continuation bytes read
past the end of the list (undefined behaviour on a short C string) are
modelled with default 0. -/

def encode_utf8 (cp : Nat) : List Nat :=
  if cp < 0x80 then [cp]
  else if cp < 0x800 then
    [0xC0 ||| (cp >>> 6), 0x80 ||| (cp &&& 0x3F)]
  else if cp < 0x10000 then
    [0xE0 ||| (cp >>> 12), 0x80 ||| ((cp >>> 6) &&& 0x3F), 0x80 ||| (cp &&& 0x3F)]
  else if cp ≤ 0x10FFFF then
    [0xF0 ||| (cp >>> 18), 0x80 ||| ((cp >>> 12) &&& 0x3F),
     0x80 ||| ((cp >>> 6) &&& 0x3F), 0x80 ||| (cp &&& 0x3F)]
  else []

def decode_utf8 : List Nat → List Nat
  | [] => []
  | c :: rest =>
    if c = 0 then []
    else if c < 0x80 then c :: decode_utf8 rest
    else if c &&& 0xE0 = 0xC0 then
      (((c &&& 0x1F) <<< 6) ||| (rest.getD 0 0 &&& 0x3F)) :: decode_utf8 (rest.drop 1)
    else if c &&& 0xF0 = 0xE0 then
      (((((c &&& 0x0F) <<< 6) ||| (rest.getD 0 0 &&& 0x3F)) <<< 6) |||
        (rest.getD 1 0 &&& 0x3F)) :: decode_utf8 (rest.drop 2)
    else if c &&& 0xF8 = 0xF0 then
      (((((((c &&& 0x07) <<< 6) ||| (rest.getD 0 0 &&& 0x3F)) <<< 6) |||
          (rest.getD 1 0 &&& 0x3F)) <<< 6) |||
        (rest.getD 2 0 &&& 0x3F)) :: decode_utf8 (rest.drop 3)
    else c :: decode_utf8 rest
termination_by l => l.length
decreasing_by
  all_goals simp_wf
  all_goals omega

/-! ### Screen renderer: `Terminal` in `terminal.hpp`

An `ExChar` cell is a code point with colors and style flags; `Color` values
are their C++ enum integers.  The escape bytes written to `m_buf` are
abstracted to structured `OutItem` events (reset prefix, cursor move, style
change, encoded character): the claims under verification concern only which
cells produce output, not the byte spelling of each escape. -/

structure Cell where
  ch : Nat
  fg : Nat
  bg : Nat
  styleFlags : Nat
deriving DecidableEq

/-- `ExChar::sameStyle` (terminal.hpp): style equality ignoring the code point. -/
def sameStyle (a b : Cell) : Bool :=
  decide (a.fg = b.fg) && decide (a.bg = b.bg) && decide (a.styleFlags = b.styleFlags)

/-- Default-constructed `ExChar(U' ', Default, Default, 0)`. -/
def blankCell : Cell := ⟨32, 0, 0, 0⟩

inductive OutItem where
  | reset
  | move (row col : Nat)
  | styleTo (c : Cell)
  | chr (cp : Nat)
deriving DecidableEq

/-- `Terminal` state (terminal.hpp): width, height, the two cell grids in
row-major order, and the output buffer `m_buf`. -/
structure TermState where
  width : Nat
  height : Nat
  front : List Cell
  back : List Cell
  buf : List OutItem
deriving DecidableEq

/-- `Terminal::putChar` (terminal.hpp): write into the front grid when the
coordinates are in bounds, otherwise do nothing.  Coordinates are C++ `int`,
hence `Int` here. -/
def putChar (t : TermState) (x y : Int) (c : Cell) : TermState :=
  if 0 ≤ x ∧ x < (t.width : Int) ∧ 0 ≤ y ∧ y < (t.height : Int) then
    { t with front := t.front.set (y.toNat * t.width + x.toNat) c }
  else t

/-- Running state of one `Terminal::refresh` pass (terminal.hpp): the back
grid being updated, the accumulated output, the last-emitted coordinates
(`int lastX = -1, lastY = -1`) and the running current style. -/
structure RefreshState where
  back : List Cell
  buf : List OutItem
  lastX : Int
  lastY : Int
  cur : Cell

/-- One cell of the `refresh` double loop (terminal.hpp): skip when front and
back agree; otherwise emit a cursor move unless the cell is immediately right
of the last emitted one, emit a style change when the running style differs,
emit the code point, and copy the front cell into the back grid. -/
def refreshCell (w : Nat) (front : List Cell) (acc : RefreshState)
    (yx : Nat × Nat) : RefreshState :=
  let y := yx.1
  let x := yx.2
  let idx := y * w + x
  let f := front.getD idx blankCell
  let b := acc.back.getD idx blankCell
  if f = b then acc
  else
    let buf1 := if acc.lastY = (y : Int) ∧ acc.lastX = (x : Int) - 1 then acc.buf
                else acc.buf ++ [.move (y + 1) (x + 1)]
    let sc := if sameStyle acc.cur f then (buf1, acc.cur) else (buf1 ++ [.styleTo f], f)
    { back := acc.back.set idx f
      buf := sc.1 ++ [.chr f.ch]
      lastX := (x : Int)
      lastY := (y : Int)
      cur := sc.2 }

/-- Row-major traversal order of the nested `for (y) for (x)` loops. -/
def rowMajor (h w : Nat) : List (Nat × Nat) :=
  (List.range h).flatMap fun y => (List.range w).map fun x => (y, x)

/-- `Terminal::refresh` (terminal.hpp): clear `m_buf`, append the
unconditional reset prefix, walk the grid diffing front against back, and
commit the new back grid and output buffer.  The final `fputs`/`fflush` is
I/O outside the model. -/
def refresh (t : TermState) : TermState :=
  let init : RefreshState := ⟨t.back, [.reset], -1, -1, blankCell⟩
  let r := (rowMajor t.height t.width).foldl (refreshCell t.width t.front) init
  { t with back := r.back, buf := r.buf }

/-! ### Input decoder: `Terminal::parseSGREvent` in `terminal.hpp`

`std::string` input becomes `List Char`.  `ev.key` is a C++ `char` assigned
from `int` arithmetic, modelled as `Int`.  `sscanf("%d;%d;%d")` and
`std::stoi` are modelled as unsigned decimal parsers: an SGR payload between
`<` and the final letter never carries a sign, and `stoi` is applied to a
digits-only prefix, so sign handling is never exercised. -/

inductive ButtonPressed where
  | None
  | Left
  | Middle
  | Right
  | Release
  | WheelUp
  | WheelDown
deriving DecidableEq

inductive KeyCode where
  | None
  | Up
  | Down
  | Left
  | Right
  | Home
  | End
  | PageUp
  | PageDown
  | Insert
  | Delete
  | Tab
  | Enter
  | Escape
  | Backspace
deriving DecidableEq

structure SGREvent where
  isMouseEvent : Bool
  isSpecial : Bool
  ctrl : Bool
  alt : Bool
  shift : Bool
  key : Int
  keyCode : KeyCode
  special : List Char
  fullSpecial : List Char
  button : ButtonPressed
  x : Nat
  y : Nat
  wheel : Int
deriving DecidableEq

/-- The default-initialized event built at the top of `parseSGREvent`, with
`fullSpecial` already set to the whole input. -/
def initEvent (input : List Char) : SGREvent :=
  ⟨false, false, false, false, false, 0, .None, [], input, .None, 0, 0, 0⟩

def escCh : Char := Char.ofNat 27

/-- Terminator test of the escape-extraction loop in `parseSGREvent`:
uppercase or lowercase letter, or a tilde. -/
def isSeqTerm (c : Char) : Bool :=
  (decide ('A' ≤ c) && decide (c ≤ 'Z')) ||
  (decide ('a' ≤ c) && decide (c ≤ 'z')) || decide (c = '~')

/-- Escape-extraction loop of `parseSGREvent` (terminal.hpp): starting at
index 2, advance to just past the first terminating character (or to the end
of the input). -/
def findEscEnd (input : List Char) (i : Nat) : Nat :=
  if h : i < input.length then
    if isSeqTerm (input.getD i ' ') then i + 1 else findEscEnd input (i + 1)
  else i
termination_by input.length - i
decreasing_by simp_wf; omega

/-- `find_last_of("Mm")`: index of the last `M` or `m`, if any. -/
def findLastMm : List Char → Option Nat
  | [] => none
  | c :: rest =>
    match findLastMm rest with
    | some i => some (i + 1)
    | none => if c = 'M' ∨ c = 'm' then some 0 else none

/-- `relevantInput.find(';', 2)`: first index `≥ i` holding `c`, if any. -/
def findFrom (s : List Char) (c : Char) (i : Nat) : Option Nat :=
  if h : i < s.length then
    if s.getD i ' ' = c then some i else findFrom s c (i + 1)
  else none
termination_by s.length - i
decreasing_by simp_wf; omega

def isDig (c : Char) : Bool := decide ('0' ≤ c) && decide (c ≤ '9')

def digitsVal (ds : List Char) : Nat :=
  ds.foldl (fun a c => 10 * a + (c.toNat - 48)) 0

/-- Parse one unsigned decimal integer from the front of `s`; models one `%d`
conversion of `sscanf` (and `std::stoi`) on sign-free input. -/
def parseDec (s : List Char) : Option (Nat × List Char) :=
  let sp := s.span isDig
  if sp.1 = [] then none else some (digitsVal sp.1, sp.2)

/-- `sscanf(content, "%d;%d;%d", ...)` on sign-free input: three decimal
fields separated by semicolons; anything after the third field is ignored. -/
def scan3 (s : List Char) : Option (Nat × Nat × Nat) :=
  match parseDec s with
  | some (a, ';' :: r1) =>
    (match parseDec r1 with
     | some (b, ';' :: r2) =>
       (match parseDec r2 with
        | some (c, _) => some (a, b, c)
        | none => none)
     | _ => none)
  | _ => none

/-- Mouse branch of `parseSGREvent` (terminal.hpp), entered when the relevant
input starts with ESC `[` `<`. -/
def parseMouse (relevantInput : List Char) (ev0 : SGREvent) : SGREvent :=
  let ev := { ev0 with isMouseEvent := true }
  match findLastMm relevantInput with
  | none => ev
  | some pos =>
    let finalLetter := relevantInput.getD pos ' '
    let content := (relevantInput.drop 3).take (pos - 3)
    match scan3 content with
    | none => ev
    | some (code, mx, my) =>
      let ev := { ev with
        x := mx, y := my
        shift := decide (code &&& 4 ≠ 0)
        alt := decide (code &&& 8 ≠ 0)
        ctrl := decide (code &&& 16 ≠ 0) }
      if finalLetter = 'm' then { ev with button := .Release }
      else if code = 64 then { ev with button := .WheelUp, wheel := 1 }
      else if code = 65 then { ev with button := .WheelDown, wheel := -1 }
      else
        match code &&& 0x03 with
        | 0 => { ev with button := .Left }
        | 1 => { ev with button := .Middle }
        | 2 => { ev with button := .Right }
        | _ => { ev with button := .None }

/-- Modifier-digit decoding of the CSI branch (terminal.hpp):
`{2:shift, 3:alt, 4:shift+alt, 5:ctrl, 6:shift+ctrl, 7:alt+ctrl, 8:all}`. -/
def applyModifier (m : Nat) (ev : SGREvent) : SGREvent :=
  { ev with
    shift := decide (m = 2) || decide (m = 4) || decide (m = 6) || decide (m = 8)
    alt := decide (m = 3) || decide (m = 4) || decide (m = 7) || decide (m = 8)
    ctrl := decide (m = 5) || decide (m = 6) || decide (m = 7) || decide (m = 8) }

/-- `~`-terminated key lookup of the CSI branch (terminal.hpp):
1=Home 2=Insert 3=Delete 4=End 5=PageUp 6=PageDown, else unchanged. -/
def tildeKey (num : Nat) (ev : SGREvent) : SGREvent :=
  if num = 1 then { ev with keyCode := .Home }
  else if num = 2 then { ev with keyCode := .Insert }
  else if num = 3 then { ev with keyCode := .Delete }
  else if num = 4 then { ev with keyCode := .End }
  else if num = 5 then { ev with keyCode := .PageUp }
  else if num = 6 then { ev with keyCode := .PageDown }
  else ev

/-- CSI branch of `parseSGREvent` (terminal.hpp): fixed-form sequences first,
then the modifier path.  `std::stoi` failures (caught exceptions in the
source) leave the event as built so far. -/
def parseCSI (r : List Char) (ev0 : SGREvent) : SGREvent :=
  let ev := { ev0 with isSpecial := true, special := r }
  if r = [escCh, '[', 'A'] then { ev with keyCode := .Up }
  else if r = [escCh, '[', 'B'] then { ev with keyCode := .Down }
  else if r = [escCh, '[', 'C'] then { ev with keyCode := .Right }
  else if r = [escCh, '[', 'D'] then { ev with keyCode := .Left }
  else if r = [escCh, '[', 'H'] ∨ r = [escCh, '[', '1', '~'] then
    { ev with keyCode := .Home }
  else if r = [escCh, '[', 'F'] ∨ r = [escCh, '[', '4', '~'] then
    { ev with keyCode := .End }
  else if r = [escCh, '[', '2', '~'] then { ev with keyCode := .Insert }
  else if r = [escCh, '[', '3', '~'] then { ev with keyCode := .Delete }
  else if r = [escCh, '[', '5', '~'] then { ev with keyCode := .PageUp }
  else if r = [escCh, '[', '6', '~'] then { ev with keyCode := .PageDown }
  else if r = [escCh, '[', 'Z'] then { ev with keyCode := .Tab, shift := true }
  else
    match findFrom r ';' 2 with
    | none => ev
    | some semiPos =>
      if semiPos + 1 < r.length then
        match parseDec ((r.drop (semiPos + 1)).takeWhile isDig) with
        | none => ev
        | some (modifier, _) =>
          let ev := applyModifier modifier ev
          let finalChar := r.getLastD ' '
          if finalChar = 'A' then { ev with keyCode := .Up }
          else if finalChar = 'B' then { ev with keyCode := .Down }
          else if finalChar = 'C' then { ev with keyCode := .Right }
          else if finalChar = 'D' then { ev with keyCode := .Left }
          else if finalChar = 'H' then { ev with keyCode := .Home }
          else if finalChar = 'F' then { ev with keyCode := .End }
          else if finalChar = '~' then
            match parseDec ((r.drop 2).take (semiPos - 2)) with
            | none => ev
            | some (num, _) => tildeKey num ev
          else ev
      else ev

/-- `Terminal::parseSGREvent` (terminal.hpp). -/
def parseSGREvent (input : List Char) : SGREvent :=
  let ev0 := initEvent input
  if input = [] then ev0
  else if input.getD 0 ' ' = Char.ofNat 8 ∨ input.getD 0 ' ' = Char.ofNat 127 then
    { ev0 with keyCode := .Backspace }
  else
    let relevantInput :=
      if input.getD 0 ' ' = escCh ∧ 3 ≤ input.length then
        let e := findEscEnd input 2
        if e ≤ input.length then input.take e else input
      else input
    if 3 ≤ relevantInput.length ∧ relevantInput.take 3 = [escCh, '[', '<'] then
      parseMouse relevantInput ev0
    else if relevantInput.getD 0 ' ' = escCh ∧ 3 ≤ relevantInput.length ∧
            relevantInput.getD 1 ' ' = '[' then
      parseCSI relevantInput ev0
    else if relevantInput.getD 0 ' ' = escCh ∧ 2 ≤ relevantInput.length then
      let c := relevantInput.getD 1 ' '
      if c.toNat < 32 then
        { ev0 with alt := true, ctrl := true, key := (c.toNat : Int) - 1 + 97 }
      else { ev0 with alt := true, key := (c.toNat : Int) }
    else
      let c := relevantInput.getD 0 ' '
      if c.toNat < 32 then
        if c.toNat = 13 ∨ c.toNat = 10 then { ev0 with keyCode := .Enter }
        else if c.toNat = 9 then { ev0 with keyCode := .Tab }
        else if c.toNat = 27 then { ev0 with keyCode := .Escape }
        else { ev0 with ctrl := true, key := (c.toNat : Int) - 1 + 97 }
      else { ev0 with key := (c.toNat : Int) }

/-- The spec side of claim C1: the lines joined with a single line-break
character between consecutive lines and no trailing break. -/
def joinLinesSpec : List (List Char) → List Char
  | [] => []
  | [l] => l
  | l :: rest => l ++ '\n' :: joinLinesSpec rest

/-- Tail of `joinLinesSpec` past the first line: one leading line break per
remaining line. -/
def tailJoin (ls : List (List Char)) : List Char :=
  ls.foldr (fun l acc => '\n' :: (l ++ acc)) []

/-- `ChainF t0 cs t1`: the commands `cs`, executed in order from text `t0`,
produce `t1`, and each command's `undo` inverts its own execution in the
state it produced.  This is the invariant relating the undo stack to the
text history. -/
def ChainF : List Char → List EditCmd → List Char → Prop
  | t0, [], t1 => t0 = t1
  | t0, c :: cs, t1 => ChainF (execCmd c t0) cs t1 ∧ undoCmd c (execCmd c t0) = t0

/-- Decimal digit character for `d < 10` (canonical rendering used to build
well-formed reports; for `d ≥ 10` it falls back to `9`, never used). -/
def digitChar (d : Nat) : Char :=
  if d = 0 then '0' else if d = 1 then '1' else if d = 2 then '2'
  else if d = 3 then '3' else if d = 4 then '4' else if d = 5 then '5'
  else if d = 6 then '6' else if d = 7 then '7' else if d = 8 then '8' else '9'

/-- Canonical decimal rendering of a natural number. -/
def natDigits (n : Nat) : List Char :=
  if h : n < 10 then [digitChar n]
  else natDigits (n / 10) ++ [digitChar (n % 10)]
termination_by n
decreasing_by
  simp_wf
  omega

/-- A well-formed SGR mouse report
`ESC [ < code ; x ; y` followed by `M` or `m`. -/
def mouseInput (code x y : Nat) (f : Char) : List Char :=
  [escCh, '[', '<'] ++ natDigits code ++ [';'] ++ natDigits x ++ [';'] ++
    natDigits y ++ [f]

/-! ### Generic list helpers (take/drop/set arithmetic used throughout) -/

theorem take_append_le {α : Type} : ∀ (a b : List α) (n : Nat), n ≤ a.length →
    (a ++ b).take n = a.take n := by
  intro a
  induction a with
  | nil => intro b n h; simp at h; simp [h]
  | cons x xs ih =>
    intro b n h
    cases n with
    | zero => simp
    | succ m => simp only [List.cons_append, List.take_succ_cons]
                rw [ih b m (by simpa using h)]

theorem drop_append_le {α : Type} : ∀ (a b : List α) (n : Nat), n ≤ a.length →
    (a ++ b).drop n = a.drop n ++ b := by
  intro a
  induction a with
  | nil => intro b n h; simp at h; simp [h]
  | cons x xs ih =>
    intro b n h
    cases n with
    | zero => simp
    | succ m => simp only [List.cons_append, List.drop_succ_cons]
                exact ih b m (by simpa using h)

theorem drop_append_add {α : Type} : ∀ (a b : List α) (k : Nat),
    (a ++ b).drop (a.length + k) = b.drop k := by
  intro a
  induction a with
  | nil => intro b k; simp
  | cons x xs ih => intro b k; simpa [Nat.succ_add] using ih b k

theorem take_append_add {α : Type} : ∀ (a b : List α) (k : Nat),
    (a ++ b).take (a.length + k) = a ++ b.take k := by
  intro a
  induction a with
  | nil => intro b k; simp
  | cons x xs ih => intro b k; simpa [Nat.succ_add] using ih b k

theorem drop_cons_getD {α : Type} : ∀ (l : List α) (i : Nat) (d : α), i < l.length →
    l.drop i = l.getD i d :: l.drop (i + 1) := by
  intro l
  induction l with
  | nil => intro i d h; simp at h
  | cons x xs ih =>
    intro i d h
    cases i with
    | zero => simp [List.getD]
    | succ j => simpa [List.getD] using ih j d (by simpa using h)

theorem getD_set {α : Type} : ∀ (l : List α) (i j : Nat) (v d : α),
    (l.set i v).getD j d = if i = j ∧ i < l.length then v else l.getD j d := by
  intro l
  induction l with
  | nil => intro i j v d; simp [List.set]
  | cons x xs ih =>
    intro i j v d
    cases i with
    | zero =>
      cases j with
      | zero => simp [List.getD]
      | succ m => simp [List.getD]
    | succ n =>
      cases j with
      | zero => simp [List.getD]
      | succ m =>
        simp only [List.set, List.getD_cons_succ, List.length_cons]
        rw [ih n m v d]
        by_cases h : n = m ∧ n < xs.length
        · rw [if_pos h, if_pos ⟨by omega, by omega⟩]
        · rw [if_neg h, if_neg (by omega)]

theorem ext_getD {α : Type} : ∀ (a b : List α) (d : α), a.length = b.length →
    (∀ i, i < a.length → a.getD i d = b.getD i d) → a = b := by
  intro a
  induction a with
  | nil => intro b d hl _; cases b with
           | nil => rfl
           | cons y ys => simp at hl
  | cons x xs ih =>
    intro b d hl hp
    cases b with
    | nil => simp at hl
    | cons y ys =>
      have h0 := hp 0 (by simp)
      simp [List.getD] at h0
      have : xs = ys := by
        apply ih ys d (by simpa using hl)
        intro i hi
        have := hp (i + 1) (by simpa using Nat.succ_lt_succ hi)
        simpa [List.getD] using this
      rw [h0, this]

/-! ### Claim C4 -/

/-- Claim C4, counterexample: on document lines `abc`, `def`, inserting a
newline followed by `XY` at flat offset 3 does not yield the lines
`abc`, empty, `XYdef` asserted by the claim. -/
theorem C4_counterexample :
    insertTextInternal [['a', 'b', 'c'], ['d', 'e', 'f']] 3 ['\n', 'X', 'Y'] ≠
      [['a', 'b', 'c'], [], ['X', 'Y', 'd', 'e', 'f']] := by decide

/-- Claim C4, amended: on document lines `abc`, `def`, inserting a newline
followed by `XY` at flat offset 3 yields the lines `abc`, `XY`, `def` —
exactly the result of splicing the inserted text into the flat string
`abc`-newline-`def` at offset 3. -/
theorem C4_insert_at_line_boundary :
    insertTextInternal [['a', 'b', 'c'], ['d', 'e', 'f']] 3 ['\n', 'X', 'Y'] =
      [['a', 'b', 'c'], ['X', 'Y'], ['d', 'e', 'f']] := by decide

/-! ### Claim C9 -/

/-- Claim C9: `putChar(x, y, c)` writes `c` into the front grid at `(x, y)`
when the coordinates are in bounds (leaving the back grid and output buffer
untouched), and otherwise changes nothing at all — a total, silent no-op. -/
theorem C9_putChar_bounds (t : TermState) (x y : Int) (c : Cell) :
    ((0 ≤ x ∧ x < (t.width : Int) ∧ 0 ≤ y ∧ y < (t.height : Int)) →
      (putChar t x y c).front = t.front.set (y.toNat * t.width + x.toNat) c ∧
      (putChar t x y c).back = t.back ∧
      (putChar t x y c).buf = t.buf) ∧
    (¬ (0 ≤ x ∧ x < (t.width : Int) ∧ 0 ≤ y ∧ y < (t.height : Int)) →
      putChar t x y c = t) := by
  constructor
  · intro h
    simp [putChar, h]
  · intro h
    simp [putChar, h]

/-- Claim C9, witness: on a 2-by-2 grid, writing at (1, 0) updates front cell
index 1, and writing at (5, 0) changes nothing. -/
theorem C9_putChar_bounds_witness :
    (putChar ⟨2, 2, List.replicate 4 blankCell, List.replicate 4 blankCell, []⟩
        1 0 ⟨65, 1, 2, 3⟩).front =
      (List.replicate 4 blankCell).set 1 ⟨65, 1, 2, 3⟩ ∧
    putChar ⟨2, 2, List.replicate 4 blankCell, List.replicate 4 blankCell, []⟩
        5 0 ⟨65, 1, 2, 3⟩ =
      ⟨2, 2, List.replicate 4 blankCell, List.replicate 4 blankCell, []⟩ := by
  constructor
  · have h := (C9_putChar_bounds
      ⟨2, 2, List.replicate 4 blankCell, List.replicate 4 blankCell, []⟩
      1 0 ⟨65, 1, 2, 3⟩).1 (by decide)
    simpa using h.1
  · exact (C9_putChar_bounds
      ⟨2, 2, List.replicate 4 blankCell, List.replicate 4 blankCell, []⟩
      5 0 ⟨65, 1, 2, 3⟩).2 (by decide)

/-! ### Claim C2: correctness of `computeDiff` -/

theorem commonPrefixLen_le_left : ∀ a b : List Char, commonPrefixLen a b ≤ a.length := by
  intro a
  induction a with
  | nil => intro b; cases b <;> simp [commonPrefixLen]
  | cons x xs ih =>
    intro b
    cases b with
    | nil => simp [commonPrefixLen]
    | cons y ys =>
      by_cases h : x = y
      · simp only [commonPrefixLen, if_pos h, List.length_cons]
        have := ih ys
        omega
      · simp [commonPrefixLen, h]

theorem commonPrefixLen_le_right : ∀ a b : List Char, commonPrefixLen a b ≤ b.length := by
  intro a
  induction a with
  | nil => intro b; cases b <;> simp [commonPrefixLen]
  | cons x xs ih =>
    intro b
    cases b with
    | nil => simp [commonPrefixLen]
    | cons y ys =>
      by_cases h : x = y
      · simp only [commonPrefixLen, if_pos h, List.length_cons]
        have := ih ys
        omega
      · simp [commonPrefixLen, h]

theorem commonPrefixLen_take : ∀ a b : List Char,
    a.take (commonPrefixLen a b) = b.take (commonPrefixLen a b) := by
  intro a
  induction a with
  | nil => intro b; cases b <;> simp [commonPrefixLen]
  | cons x xs ih =>
    intro b
    cases b with
    | nil => simp [commonPrefixLen]
    | cons y ys =>
      by_cases h : x = y
      · simp only [commonPrefixLen, if_pos h]
        rw [Nat.add_comm 1 (commonPrefixLen xs ys)]
        simp only [List.take_succ_cons]
        rw [h, ih ys]
      · simp [commonPrefixLen, h]

theorem suffixLoop_spec (oldT newT : List Char) (p : Nat) :
    ∀ os ns, os ≤ oldT.length → ns ≤ newT.length → p ≤ os → p ≤ ns →
    oldT.drop os = newT.drop ns →
    p ≤ (suffixLoop oldT newT p os ns).1 ∧
    (suffixLoop oldT newT p os ns).1 ≤ oldT.length ∧
    p ≤ (suffixLoop oldT newT p os ns).2 ∧
    (suffixLoop oldT newT p os ns).2 ≤ newT.length ∧
    oldT.drop (suffixLoop oldT newT p os ns).1 =
      newT.drop (suffixLoop oldT newT p os ns).2 := by
  intro os
  induction os with
  | zero =>
    intro ns h1 h2 h3 h4 h5
    simp only [suffixLoop]
    exact ⟨h3, Nat.zero_le _, h4, h2, by simpa using h5⟩
  | succ os ih =>
    intro ns h1 h2 h3 h4 h5
    simp only [suffixLoop]
    by_cases hg : p < os + 1 ∧ p < ns ∧ oldT.getD os ' ' = newT.getD (ns - 1) ' '
    · rw [if_pos hg]
      apply ih (ns - 1) (by omega) (by omega) (by omega) (by omega)
      have hos : os < oldT.length := by omega
      have hns : ns - 1 < newT.length := by omega
      rw [drop_cons_getD oldT os ' ' hos, drop_cons_getD newT (ns - 1) ' ' hns]
      have : ns - 1 + 1 = ns := by omega
      rw [this, hg.2.2, h5]
    · rw [if_neg hg]
      exact ⟨by omega, h1, h4, h2, h5⟩

theorem take_mid_drop {α : Type} (l : List α) (p q : Nat) (h1 : p ≤ q) :
    l.take p ++ (l.drop p).take (q - p) ++ l.drop q = l := by
  have h2 : (l.drop p).drop (q - p) = l.drop q := by
    rw [List.drop_drop]
    congr 1
    omega
  conv_rhs => rw [← List.take_append_drop p l]
  rw [List.append_assoc]
  congr 1
  conv_rhs => rw [← List.take_append_drop (q - p) (l.drop p)]
  rw [h2]

/-- Claim C2: the single operation computed by `computeDiff(old, new)`, when
applied to `old` (no-op for NONE, splice of `newText` at `position` for
INSERT, removal of `oldText` at `position` for DELETE, substitution of
`newText` for `oldText` at `position` for REPLACE), yields exactly `new`; and
the operation is NONE if and only if `old = new`. -/
theorem C2_computeDiff_correct (oldT newT : List Char) :
    applyDiff oldT (computeDiff oldT newT) = newT ∧
    ((computeDiff oldT newT).type = DiffOpType.NONE ↔ oldT = newT) := by
  by_cases h : oldT = newT
  · subst h
    simp [computeDiff, applyDiff]
  · have hs := suffixLoop_spec oldT newT (commonPrefixLen oldT newT)
      oldT.length newT.length (Nat.le_refl _) (Nat.le_refl _)
      (commonPrefixLen_le_left _ _) (commonPrefixLen_le_right _ _)
      (by simp)
    set p := commonPrefixLen oldT newT with hpdef
    set s := suffixLoop oldT newT p oldT.length newT.length with hsdef
    obtain ⟨h1, h2, h3, h4, h5⟩ := hs
    have htk : oldT.take p = newT.take p := commonPrefixLen_take oldT newT
    simp only [computeDiff, if_neg h]
    rw [← hpdef, ← hsdef]
    by_cases hins : p = s.1
    · rw [if_pos hins]
      constructor
      · simp only [applyDiff]
        rw [htk]
        have hop : oldT.drop p = newT.drop s.2 := by rw [hins, h5]
        rw [hop]
        exact take_mid_drop newT p s.2 h3
      · constructor
        · intro ht; simp at ht
        · intro he; exact absurd he h
    · rw [if_neg hins]
      by_cases hdel : p = s.2
      · rw [if_pos hdel]
        constructor
        · simp only [applyDiff]
          have hlen : ((oldT.drop p).take (s.1 - p)).length = s.1 - p := by
            rw [List.length_take, List.length_drop]
            omega
          rw [hlen]
          have : p + (s.1 - p) = s.1 := by omega
          rw [this, h5, htk, ← hdel]
          exact List.take_append_drop p newT
        · constructor
          · intro ht; simp at ht
          · intro he; exact absurd he h
      · rw [if_neg hdel]
        constructor
        · simp only [applyDiff]
          have hlen : ((oldT.drop p).take (s.1 - p)).length = s.1 - p := by
            rw [List.length_take, List.length_drop]
            omega
          rw [hlen]
          have : p + (s.1 - p) = s.1 := by omega
          rw [this, h5, htk]
          exact take_mid_drop newT p s.2 h3
        · constructor
          · intro ht; simp at ht
          · intro he; exact absurd he h

/-! ### Claim C10: UTF-8 round trip -/

/-- Byte-level facts for a two-byte lead byte `0xC0 | q`, `q < 32`:
its value, and the tests `decode_utf8` applies to it. -/
theorem utf8_lead2 : ∀ q, q < 32 →
    (0xC0 ||| q = 192 + q) ∧ ¬(192 + q = 0) ∧ ¬(192 + q < 0x80) ∧
    ((192 + q) &&& 0xE0 = 0xC0) ∧ ((192 + q) &&& 0x1F = q) := by decide

/-- Byte-level facts for a continuation byte `0x80 | r`, `r < 64`. -/
theorem utf8_cont : ∀ r, r < 64 →
    (0x80 ||| r = 128 + r) ∧ ((128 + r) &&& 0x3F = r) := by decide

/-- Byte-level facts for a three-byte lead byte `0xE0 | q`, `q < 16`. -/
theorem utf8_lead3 : ∀ q, q < 16 →
    (0xE0 ||| q = 224 + q) ∧ ¬(224 + q = 0) ∧ ¬(224 + q < 0x80) ∧
    ¬((224 + q) &&& 0xE0 = 0xC0) ∧ ((224 + q) &&& 0xF0 = 0xE0) ∧
    ((224 + q) &&& 0x0F = q) := by decide

/-- Byte-level facts for a four-byte lead byte `0xF0 | q`, `q < 8`. -/
theorem utf8_lead4 : ∀ q, q < 8 →
    (0xF0 ||| q = 240 + q) ∧ ¬(240 + q = 0) ∧ ¬(240 + q < 0x80) ∧
    ¬((240 + q) &&& 0xE0 = 0xC0) ∧ ¬((240 + q) &&& 0xF0 = 0xE0) ∧
    ((240 + q) &&& 0xF8 = 0xF0) ∧ ((240 + q) &&& 0x07 = q) := by decide

theorem and_63_eq_mod (x : Nat) : x &&& 63 = x % 64 := by
  have h := Nat.and_pow_two_sub_one_eq_mod x 6
  norm_num at h
  exact h

theorem shl6_or (q r : Nat) (h : r < 64) : (q <<< 6) ||| r = q * 64 + r := by
  have h64 : (2 : Nat) ^ 6 = 64 := by norm_num
  have hlt : r < 2 ^ 6 := by omega
  have key := Nat.mul_add_lt_is_or hlt q
  rw [Nat.shiftLeft_eq, h64]
  rw [h64] at key
  rw [Nat.mul_comm q 64]
  exact key.symm

/-- Claim C10: for every code point `0 < cp ≤ 0x10FFFF`, decoding the byte
sequence produced by `encode_utf8 cp` with `decode_utf8` yields exactly
`[cp]`. -/
theorem C10_utf8_round_trip (cp : Nat) (h1 : 0 < cp) (h2 : cp ≤ 0x10FFFF) :
    decode_utf8 (encode_utf8 cp) = [cp] := by
  by_cases c1 : cp < 0x80
  · simp only [encode_utf8, if_pos c1]
    simp only [decode_utf8, if_neg (by omega : ¬(cp = 0)), if_pos c1]
  · by_cases c2 : cp < 0x800
    · have hq : cp >>> 6 = cp / 64 := by
        rw [Nat.shiftRight_eq_div_pow]
      have hr : cp &&& 0x3F = cp % 64 := and_63_eq_mod cp
      obtain ⟨e1, e2, e3, e4, e5⟩ := utf8_lead2 (cp / 64) (by omega)
      obtain ⟨f1, f2⟩ := utf8_cont (cp % 64) (by omega)
      simp only [encode_utf8, if_neg c1, if_pos c2]
      rw [hq, hr, e1, f1]
      simp only [decode_utf8, if_neg e2, if_neg e3, if_pos e4,
        List.getD_cons_zero, List.drop_succ_cons, List.drop_zero]
      rw [e5, f2, shl6_or (cp / 64) (cp % 64) (by omega)]
      have : cp / 64 * 64 + cp % 64 = cp := by omega
      rw [this]
    · by_cases c3 : cp < 0x10000
      · have hq : cp >>> 12 = cp / 4096 := by
          rw [Nat.shiftRight_eq_div_pow]
        have hm : (cp >>> 6) &&& 0x3F = cp / 64 % 64 := by
          rw [Nat.shiftRight_eq_div_pow]; norm_num
          exact and_63_eq_mod (cp / 64)
        have hr : cp &&& 0x3F = cp % 64 := and_63_eq_mod cp
        obtain ⟨e1, e2, e3, e4, e5, e6⟩ := utf8_lead3 (cp / 4096) (by omega)
        obtain ⟨f1, f2⟩ := utf8_cont (cp / 64 % 64) (by omega)
        obtain ⟨g1, g2⟩ := utf8_cont (cp % 64) (by omega)
        simp only [encode_utf8, if_neg c1, if_neg c2, if_pos c3]
        rw [hq, hm, hr, e1, f1, g1]
        simp only [decode_utf8, if_neg e2, if_neg e3, if_neg e4, if_pos e5,
          List.getD_cons_zero, List.getD_cons_succ, List.drop_succ_cons,
          List.drop_zero]
        rw [e6, f2, g2, shl6_or (cp / 4096) (cp / 64 % 64) (by omega)]
        rw [shl6_or _ (cp % 64) (by omega)]
        have : (cp / 4096 * 64 + cp / 64 % 64) * 64 + cp % 64 = cp := by omega
        rw [this]
      · have hq : cp >>> 18 = cp / 262144 := by
          rw [Nat.shiftRight_eq_div_pow]
        have hm12 : (cp >>> 12) &&& 0x3F = cp / 4096 % 64 := by
          rw [Nat.shiftRight_eq_div_pow]; norm_num
          exact and_63_eq_mod (cp / 4096)
        have hm6 : (cp >>> 6) &&& 0x3F = cp / 64 % 64 := by
          rw [Nat.shiftRight_eq_div_pow]; norm_num
          exact and_63_eq_mod (cp / 64)
        have hr : cp &&& 0x3F = cp % 64 := and_63_eq_mod cp
        obtain ⟨e1, e2, e3, e4, e5, e6, e7⟩ := utf8_lead4 (cp / 262144) (by omega)
        obtain ⟨f1, f2⟩ := utf8_cont (cp / 4096 % 64) (by omega)
        obtain ⟨g1, g2⟩ := utf8_cont (cp / 64 % 64) (by omega)
        obtain ⟨k1, k2⟩ := utf8_cont (cp % 64) (by omega)
        simp only [encode_utf8, if_neg c1, if_neg c2, if_neg c3, if_pos h2]
        rw [hq, hm12, hm6, hr, e1, f1, g1, k1]
        simp only [decode_utf8, if_neg e2, if_neg e3, if_neg e4, if_neg e5,
          if_pos e6, List.getD_cons_zero, List.getD_cons_succ,
          List.drop_succ_cons, List.drop_zero]
        rw [e7, f2, g2, k2, shl6_or (cp / 262144) (cp / 4096 % 64) (by omega)]
        rw [shl6_or _ (cp / 64 % 64) (by omega)]
        rw [shl6_or _ (cp % 64) (by omega)]
        have : ((cp / 262144 * 64 + cp / 4096 % 64) * 64 + cp / 64 % 64) * 64 +
            cp % 64 = cp := by omega
        rw [this]

/-- Claim C10, witness: the round trip at code point 0x10FFFF. -/
theorem C10_utf8_round_trip_witness :
    0 < 0x10FFFF ∧ (0x10FFFF : Nat) ≤ 0x10FFFF ∧
    decode_utf8 (encode_utf8 0x10FFFF) = [0x10FFFF] :=
  ⟨by decide, by decide, C10_utf8_round_trip 0x10FFFF (by decide) (by decide)⟩

/-! ### Claim C1: document round trip -/

theorem getLastD_ne_nil {α : Type} : ∀ (l : List α) (a b : α), l ≠ [] →
    l.getLastD a = l.getLastD b := by
  intro l
  induction l with
  | nil => intro a b h; exact absurd rfl h
  | cons x xs _ =>
    intro a b _
    cases xs with
    | nil => rfl
    | cons y ys => simp only [List.getLastD_cons]

theorem getLastD_eq_getD {α : Type} : ∀ (l : List α) (d : α), l ≠ [] →
    l.getLastD d = l.getD (l.length - 1) d := by
  intro l
  induction l with
  | nil => intro d h; exact absurd rfl h
  | cons x xs ih =>
    intro d _
    cases xs with
    | nil => rfl
    | cons y ys =>
      rw [List.getLastD_cons, getLastD_ne_nil (y :: ys) x d (by simp), ih d (by simp)]
      simp [List.getD]

theorem flatPos_zero (l : List Char) (rest : List (List Char)) :
    flatPosToLinePos (l :: rest) 0 = (0, 0) := by
  simp [flatPosToLinePos, flatPosToLinePosAux]

theorem flatAux_totalLen : ∀ (lines : List (List Char)) (i : Nat) (fb : Nat × Nat),
    lines ≠ [] →
    flatPosToLinePosAux fb lines i (getTextLength lines) =
      (i + lines.length - 1, (lines.getLastD []).length) := by
  intro lines
  induction lines with
  | nil => intro i fb h; exact absurd rfl h
  | cons l rest ih =>
    intro i fb _
    cases rest with
    | nil => simp [flatPosToLinePosAux, getTextLength]
    | cons r rs =>
      have hgl : getTextLength (l :: r :: rs) = l.length + 1 + getTextLength (r :: rs) :=
        rfl
      have hg : ¬ (getTextLength (l :: r :: rs) ≤ l.length) := by rw [hgl]; omega
      have step : flatPosToLinePosAux fb (l :: r :: rs) i (getTextLength (l :: r :: rs)) =
          flatPosToLinePosAux fb (r :: rs) (i + 1) (getTextLength (r :: rs)) := by
        rw [show flatPosToLinePosAux fb (l :: r :: rs) i
              (getTextLength (l :: r :: rs)) =
            if getTextLength (l :: r :: rs) ≤ l.length then
              (i, getTextLength (l :: r :: rs))
            else flatPosToLinePosAux fb (r :: rs) (i + 1)
              (getTextLength (l :: r :: rs) - (l.length + 1)) from rfl]
        rw [if_neg hg]
        congr 1
        rw [hgl]
        omega
      rw [step, ih (i + 1) fb (by simp)]
      simp only [Prod.mk.injEq]
      constructor
      · simp only [List.length_cons]
        omega
      · simp only [List.getLastD_cons]

theorem joinLinesSpec_cons : ∀ (rest : List (List Char)) (l : List Char),
    joinLinesSpec (l :: rest) = l ++ tailJoin rest := by
  intro rest
  induction rest with
  | nil => intro l; simp [joinLinesSpec, tailJoin]
  | cons r rs ih =>
    intro l
    rw [show joinLinesSpec (l :: r :: rs) = l ++ '\n' :: joinLinesSpec (r :: rs)
          from rfl]
    rw [ih r]
    simp [tailJoin]

theorem getTextAtMid_spec (lines : List (List Char)) (el : Nat)
    (h : el + 1 = lines.length) :
    ∀ (k i : Nat), i + k = el →
    getTextAtMid lines el i ++ '\n' :: lineAt lines el = tailJoin (lines.drop i) := by
  intro k
  induction k with
  | zero =>
    intro i hi
    rw [getTextAtMid, if_neg (by omega)]
    have hdrop : lines.drop i = lineAt lines i :: lines.drop (i + 1) :=
      drop_cons_getD lines i [] (by omega)
    rw [hdrop]
    have : lines.drop (i + 1) = [] := by
      have : i + 1 = lines.length := by omega
      rw [this, List.drop_length]
    rw [this]
    have : i = el := by omega
    rw [this]
    simp [tailJoin]
  | succ k ih =>
    intro i hi
    rw [getTextAtMid, if_pos (by omega)]
    have hdrop : lines.drop i = lineAt lines i :: lines.drop (i + 1) :=
      drop_cons_getD lines i [] (by omega)
    rw [hdrop]
    rw [show tailJoin (lineAt lines i :: lines.drop (i + 1)) =
          '\n' :: (lineAt lines i ++ tailJoin (lines.drop (i + 1))) from rfl]
    rw [← ih (i + 1) (by omega)]
    simp

/-- Claim C1: for every document with at least one line, reading the whole
document — `getTextAt(0, getTextLength())` — returns exactly the lines joined
with a single line-break character between consecutive lines, with no
trailing break. -/
theorem C1_round_trip (lines : List (List Char)) (h : lines ≠ []) :
    getTextAt lines 0 (getTextLength lines) = joinLinesSpec lines := by
  cases lines with
  | nil => exact absurd rfl h
  | cons l rest =>
    have hend : flatPosToLinePos (l :: rest) (0 + getTextLength (l :: rest)) =
        ((l :: rest).length - 1, ((l :: rest).getLastD []).length) := by
      rw [Nat.zero_add, flatPosToLinePos, flatAux_totalLen (l :: rest) 0 _ (by simp)]
      simp
    cases rest with
    | nil =>
      simp only [getTextAt, flatPos_zero, hend]
      simp [joinLinesSpec, lineAt, List.getD, getLastD_eq_getD]
    | cons r rs =>
      have hlen : (l :: r :: rs).length - 1 = rs.length + 1 := by simp
      simp only [getTextAt, flatPos_zero, hend]
      rw [hlen]
      rw [if_neg (by omega)]
      rw [if_pos (by simp)]
      rw [if_pos (by simp only [List.length_cons]; omega)]
      have hlast : (l :: r :: rs).getLastD [] = lineAt (l :: r :: rs) (rs.length + 1) := by
        rw [getLastD_eq_getD (l :: r :: rs) [] (by simp)]
        simp [lineAt]
      rw [hlast, List.take_length]
      have hmid := getTextAtMid_spec (l :: r :: rs) (rs.length + 1) (by simp)
        rs.length 1 (by omega)
      rw [List.drop_zero, List.append_assoc, hmid]
      rw [show (l :: r :: rs).drop 1 = r :: rs from rfl]
      rw [show lineAt (l :: r :: rs) 0 = l from rfl]
      rw [joinLinesSpec_cons]

/-- Claim C1, witness: round trip on the two-line document `ab`, `c`. -/
theorem C1_round_trip_witness :
    ([['a', 'b'], ['c']] : List (List Char)) ≠ [] ∧
    getTextAt [['a', 'b'], ['c']] 0 (getTextLength [['a', 'b'], ['c']]) =
      joinLinesSpec [['a', 'b'], ['c']] :=
  ⟨by decide, C1_round_trip [['a', 'b'], ['c']] (by decide)⟩

/-! ### Undo-engine lemmas (claims C3, C5, C7) -/

theorem length_take_of_le {α : Type} (s : List α) (pos : Nat) (h : pos ≤ s.length) :
    (s.take pos).length = pos := by
  rw [List.length_take]
  omega

/-- Executing an `InsertTextCommand` and then its `undo` restores the text,
for any position accepted by the `insertText` guard. -/
theorem insert_then_delete (s t : List Char) (pos : Nat) (h : pos ≤ s.length) :
    ebDeleteInternal pos t.length (ebInsertInternal pos t s) = s := by
  have hA : (s.take pos).length = pos := length_take_of_le s pos h
  rw [ebInsertInternal, if_pos h]
  by_cases ht : t = []
  · subst ht
    simp only [List.append_nil, List.nil_append, List.take_append_drop]
    rw [ebDeleteInternal]
    by_cases hp : pos < s.length
    · rw [if_pos hp]
      rw [show pos + min ([] : List Char).length (s.length - pos) = pos by simp]
      exact List.take_append_drop pos s
    · rw [if_neg hp]
  · have htl : 0 < t.length := List.length_pos.mpr ht
    rw [ebDeleteInternal]
    have hlen : (s.take pos ++ t ++ s.drop pos).length = s.length + t.length := by
      simp only [List.length_append, List.length_drop, hA]
      omega
    rw [if_pos (by rw [hlen]; omega)]
    rw [show min t.length ((s.take pos ++ t ++ s.drop pos).length - pos) = t.length by
      rw [hlen]; omega]
    have h1 : (s.take pos ++ t ++ s.drop pos).take pos = s.take pos := by
      rw [List.append_assoc]
      have hres := take_append_add (s.take pos) (t ++ s.drop pos) 0
      rw [hA] at hres
      simpa using hres
    have h2 : (s.take pos ++ t ++ s.drop pos).drop (pos + t.length) = s.drop pos := by
      rw [List.append_assoc]
      have hres := drop_append_add (s.take pos) (t ++ s.drop pos) t.length
      rw [hA] at hres
      rw [hres]
      have hres2 := drop_append_add t (s.drop pos) 0
      simpa using hres2
    rw [h1, h2, List.take_append_drop]

/-- Executing a `DeleteTextCommand` built from `getTextAt` and then its `undo`
restores the text. -/
theorem insert_getTextAt_delete (s : List Char) (pos n : Nat) (h : pos < s.length) :
    ebInsertInternal pos (ebGetTextAt pos n s)
      (ebDeleteInternal pos (ebGetTextAt pos n s).length s) = s := by
  have hA : (s.take pos).length = pos := length_take_of_le s pos (by omega)
  have hd : ebGetTextAt pos n s = (s.drop pos).take (min n (s.length - pos)) := by
    rw [ebGetTextAt, if_pos h]
  have hdl : (ebGetTextAt pos n s).length = min n (s.length - pos) := by
    rw [hd, List.length_take, List.length_drop]
    omega
  rw [ebDeleteInternal, if_pos h, hdl]
  rw [show min (min n (s.length - pos)) (s.length - pos) = min n (s.length - pos) by
    omega]
  have hs1len : (s.take pos ++ s.drop (pos + min n (s.length - pos))).length =
      s.length - min n (s.length - pos) := by
    simp only [List.length_append, List.length_drop, hA]
    omega
  rw [ebInsertInternal, if_pos (by rw [hs1len]; omega)]
  have h1 : (s.take pos ++ s.drop (pos + min n (s.length - pos))).take pos =
      s.take pos := by
    have hres := take_append_add (s.take pos) (s.drop (pos + min n (s.length - pos))) 0
    rw [hA] at hres
    simpa using hres
  have h2 : (s.take pos ++ s.drop (pos + min n (s.length - pos))).drop pos =
      s.drop (pos + min n (s.length - pos)) := by
    have hres := drop_append_add (s.take pos) (s.drop (pos + min n (s.length - pos))) 0
    rw [hA] at hres
    simpa using hres
  rw [h1, h2, hd]
  rw [List.append_assoc]
  have h3 : ((s.drop pos).drop (min n (s.length - pos))) =
      s.drop (pos + min n (s.length - pos)) := by
    rw [List.drop_drop]
  rw [← h3, List.take_append_drop, List.take_append_drop]

/-- `deleteTextInternal` never shortens the text below `pos`. -/
theorem deleteInternal_ge (s : List Char) (pos k : Nat) (h : pos ≤ s.length) :
    pos ≤ (ebDeleteInternal pos k s).length := by
  rw [ebDeleteInternal]
  by_cases hp : pos < s.length
  · rw [if_pos hp]
    simp only [List.length_append, List.length_drop]
    rw [length_take_of_le s pos (by omega)]
    omega
  · rw [if_neg hp]
    exact h

/-- Executing a `ReplaceTextCommand` built from `getTextAt` and then its
`undo` (delete the new text, re-insert the old) restores the text — the two
halves act as one atomic command. -/
theorem replace_inverse (s t : List Char) (pos n : Nat) (h : pos < s.length) :
    undoCmd (.replaceCmd pos (ebGetTextAt pos n s) t)
      (execCmd (.replaceCmd pos (ebGetTextAt pos n s) t) s) = s := by
  simp only [execCmd, undoCmd]
  rw [insert_then_delete _ t pos
    (deleteInternal_ge s pos (ebGetTextAt pos n s).length (by omega))]
  exact insert_getTextAt_delete s pos n h

/-- Any command produced by a public mutator's guard is undone exactly by its
own `undo` in the state its `execute` produced. -/
theorem pubCmd_inverse (st : EditState) (op : PubOp) (c : EditCmd)
    (h : pubCmd st op = some c) : undoCmd c (execCmd c st.text) = st.text := by
  cases op with
  | insertOp p t =>
    simp only [pubCmd] at h
    by_cases hp : p ≤ st.text.length
    · rw [if_pos hp] at h
      cases h
      simp only [execCmd, undoCmd]
      exact insert_then_delete st.text t p hp
    · rw [if_neg hp] at h
      cases h
  | deleteOp p n =>
    simp only [pubCmd] at h
    by_cases hp : p < st.text.length
    · rw [if_pos hp] at h
      by_cases hd : ebGetTextAt p n st.text ≠ []
      · rw [if_pos hd] at h
        cases h
        simp only [execCmd, undoCmd]
        exact insert_getTextAt_delete st.text p n hp
      · rw [if_neg hd] at h
        cases h
    · rw [if_neg hp] at h
      cases h
  | replaceOp p n t =>
    simp only [pubCmd] at h
    by_cases hp : p < st.text.length
    · rw [if_pos hp] at h
      cases h
      exact replace_inverse st.text t p n hp
    · rw [if_neg hp] at h
      cases h

/-- A left fold of truncated subtractions subtracts the total (in `Nat`,
`a - x - y = a - (x + y)` holds unconditionally). -/
theorem foldl_sub_sum (sz : EditCmd → Nat) : ∀ (rs : List EditCmd) (a : Nat),
    rs.foldl (fun cur d => cur - sz d) a = a - (rs.map sz).sum := by
  intro rs
  induction rs with
  | nil => intro a; simp
  | cons r rest ih =>
    intro a
    simp only [List.foldl_cons, List.map_cons, List.sum_cons]
    rw [ih (a - sz r)]
    omega

/-- The trim loop of `executeCommand`: when the size counter equals the sum of
the stacked command sizes, it drops some prefix (oldest entries) of the stack
and on exit both configured limits hold and the counter is again exact. -/
theorem trimLoop_spec (ml ms : Nat) (sz : EditCmd → Nat) :
    ∀ (l : List EditCmd) (cur : Nat), cur = (l.map sz).sum →
    ∃ k, k ≤ l.length ∧
      trimLoop ml ms sz l cur = (l.drop k, ((l.drop k).map sz).sum) ∧
      (l.drop k).length ≤ ml ∧ ((l.drop k).map sz).sum ≤ ms := by
  intro l
  induction l with
  | nil =>
    intro cur h
    refine ⟨0, Nat.le_refl _, ?_, by simp, by simp⟩
    simp only [trimLoop, List.drop_nil]
    rw [h]
  | cons c rest ih =>
    intro cur h
    simp only [trimLoop]
    by_cases hg : (c :: rest).length > ml ∨ cur > ms
    · rw [if_pos hg]
      have hsub : cur - sz c = (rest.map sz).sum := by
        rw [h]
        simp only [List.map_cons, List.sum_cons]
        omega
      obtain ⟨k, hk, heq, hb1, hb2⟩ := ih (cur - sz c) hsub
      exact ⟨k + 1, by simp only [List.length_cons]; omega,
        by simpa [List.drop_succ_cons] using heq,
        by simpa [List.drop_succ_cons] using hb1,
        by simpa [List.drop_succ_cons] using hb2⟩
    · rw [if_neg hg]
      refine ⟨0, Nat.zero_le _, ?_, ?_, ?_⟩
      · rw [List.drop_zero, ← h]
      · rw [List.drop_zero]; omega
      · rw [List.drop_zero, ← h]; omega

/-- The trim loop never evicts the newest entry as long as one slot is allowed
and that entry's own size fits the byte budget. -/
theorem trimLoop_keeps_last (ml ms : Nat) (sz : EditCmd → Nat) (c : EditCmd) :
    ∀ (l : List EditCmd) (cur : Nat), cur = ((l ++ [c]).map sz).sum →
    1 ≤ ml → sz c ≤ ms →
    ∃ k, k ≤ l.length ∧
      trimLoop ml ms sz (l ++ [c]) cur =
        (l.drop k ++ [c], ((l.drop k ++ [c]).map sz).sum) := by
  intro l
  induction l with
  | nil =>
    intro cur h hml hms
    simp only [List.nil_append, List.map_cons, List.map_nil, List.sum_cons,
      List.sum_nil] at h
    refine ⟨0, Nat.le_refl _, ?_⟩
    simp only [trimLoop, List.length_cons, List.length_nil]
    rw [if_neg (by omega)]
    simp [h]
  | cons d rest ih =>
    intro cur h hml hms
    have hstep : trimLoop ml ms sz ((d :: rest) ++ [c]) cur =
        if (d :: (rest ++ [c])).length > ml ∨ cur > ms then
          trimLoop ml ms sz (rest ++ [c]) (cur - sz d)
        else (d :: (rest ++ [c]), cur) := rfl
    rw [hstep]
    by_cases hg : (d :: (rest ++ [c])).length > ml ∨ cur > ms
    · rw [if_pos hg]
      have hsub : cur - sz d = ((rest ++ [c]).map sz).sum := by
        rw [h]
        simp only [List.cons_append, List.map_cons, List.sum_cons]
        omega
      obtain ⟨k, hk, heq⟩ := ih (cur - sz d) hsub hml hms
      refine ⟨k + 1, by simp only [List.length_cons]; omega, ?_⟩
      rw [heq]
      simp [List.drop_succ_cons]
    · rw [if_neg hg]
      refine ⟨0, Nat.zero_le _, ?_⟩
      simp only [List.drop_zero, List.cons_append, Prod.mk.injEq]
      exact ⟨trivial, h⟩

/-- `executeCommand` with undo enabled, under exact size accounting: the new
text is the command's execution, the redo stack is cleared, and the undo
stack becomes the pushed stack minus `k` oldest entries, within both limits. -/
theorem executeCommand_spec (sz : EditCmd → Nat) (c : EditCmd) (st : EditState)
    (he : st.undoEnabled = true)
    (hinv : st.currentUndoSize =
      (st.undoStack.map sz).sum + (st.redoStack.map sz).sum) :
    ∃ k, k ≤ st.undoStack.length + 1 ∧
      executeCommand sz c st = { st with
        text := execCmd c st.text,
        undoStack := (st.undoStack ++ [c]).drop k,
        redoStack := [],
        currentUndoSize := (((st.undoStack ++ [c]).drop k).map sz).sum } ∧
      ((st.undoStack ++ [c]).drop k).length ≤ st.maxUndoLevels ∧
      (((st.undoStack ++ [c]).drop k).map sz).sum ≤ st.maxUndoSize := by
  have hcur2 : (st.redoStack.foldl (fun cur d => cur - sz d)
      (st.currentUndoSize + sz c)) = ((st.undoStack ++ [c]).map sz).sum := by
    rw [foldl_sub_sum, hinv]
    simp only [List.map_append, List.map_cons, List.map_nil, List.sum_append,
      List.sum_cons, List.sum_nil]
    omega
  obtain ⟨k, hk, heq, hb1, hb2⟩ := trimLoop_spec st.maxUndoLevels st.maxUndoSize sz
    (st.undoStack ++ [c]) _ hcur2
  refine ⟨k, by simpa using hk, ?_, hb1, hb2⟩
  simp only [executeCommand, he, if_true]
  rw [heq]

/-- Claim C5: after every `executeCommand` with undo enabled (and exact size
accounting, which holds in every reachable state), the undo stack length is
at most `maxUndoLevels`, the sum of its commands' sizes is at most
`maxUndoSize`, entries are removed only from the oldest end of the undo stack
(the resulting stack is a `drop` of the pushed stack), and the redo stack —
cleared by `executeCommand` itself before trimming — is never touched by the
eviction loop, which reads and writes only the undo stack. -/
theorem C5_execute_bounds (sz : EditCmd → Nat) (c : EditCmd) (st : EditState)
    (he : st.undoEnabled = true)
    (hinv : st.currentUndoSize =
      (st.undoStack.map sz).sum + (st.redoStack.map sz).sum) :
    (executeCommand sz c st).undoStack.length ≤ st.maxUndoLevels ∧
    (((executeCommand sz c st).undoStack.map sz).sum) ≤ st.maxUndoSize ∧
    (∃ k, (executeCommand sz c st).undoStack = (st.undoStack ++ [c]).drop k) ∧
    (executeCommand sz c st).redoStack = [] := by
  obtain ⟨k, _, heq, hb1, hb2⟩ := executeCommand_spec sz c st he hinv
  rw [heq]
  exact ⟨hb1, hb2, ⟨k, rfl⟩, rfl⟩

/-- Claim C5, witness: a state over the byte budget gets trimmed from the
oldest end while satisfying both bounds afterwards, with the redo stack
cleared. -/
theorem C5_execute_bounds_witness :
    ((⟨['a', 'b'], [.insertCmd 0 ['a'], .insertCmd 1 ['b']], [], 10, 20, 16, true⟩ :
        EditState).currentUndoSize =
      ((([.insertCmd 0 ['a'], .insertCmd 1 ['b']] : List EditCmd).map
          (fun _ => (8 : Nat))).sum +
        (([] : List EditCmd).map (fun _ => (8 : Nat))).sum)) ∧
    ((executeCommand (fun _ => (8 : Nat)) (.insertCmd 2 ['c'])
        ⟨['a', 'b'], [.insertCmd 0 ['a'], .insertCmd 1 ['b']], [], 10, 20, 16, true⟩
        ).undoStack.length ≤ 10 ∧
     (((executeCommand (fun _ => (8 : Nat)) (.insertCmd 2 ['c'])
        ⟨['a', 'b'], [.insertCmd 0 ['a'], .insertCmd 1 ['b']], [], 10, 20, 16, true⟩
        ).undoStack.map (fun _ => (8 : Nat))).sum ≤ 20) ∧
     (∃ k, (executeCommand (fun _ => (8 : Nat)) (.insertCmd 2 ['c'])
        ⟨['a', 'b'], [.insertCmd 0 ['a'], .insertCmd 1 ['b']], [], 10, 20, 16, true⟩
        ).undoStack =
       (([.insertCmd 0 ['a'], .insertCmd 1 ['b']] : List EditCmd) ++
          ([.insertCmd 2 ['c']] : List EditCmd)).drop k) ∧
     (executeCommand (fun _ => (8 : Nat)) (.insertCmd 2 ['c'])
        ⟨['a', 'b'], [.insertCmd 0 ['a'], .insertCmd 1 ['b']], [], 10, 20, 16, true⟩
        ).redoStack = []) :=
  ⟨by decide,
   C5_execute_bounds (fun _ => (8 : Nat)) (.insertCmd 2 ['c'])
     ⟨['a', 'b'], [.insertCmd 0 ['a'], .insertCmd 1 ['b']], [], 10, 20, 16, true⟩
     (by decide) (by decide)⟩

/-- `executeCommand` with undo enabled keeps the command it just pushed as
long as one undo slot is allowed and the command's own size fits the byte
budget; only older entries can be evicted. -/
theorem executeCommand_keeps_last (sz : EditCmd → Nat) (c : EditCmd)
    (st : EditState) (he : st.undoEnabled = true)
    (hinv : st.currentUndoSize =
      (st.undoStack.map sz).sum + (st.redoStack.map sz).sum)
    (hml : 1 ≤ st.maxUndoLevels) (hms : sz c ≤ st.maxUndoSize) :
    ∃ k, executeCommand sz c st = { st with
      text := execCmd c st.text,
      undoStack := st.undoStack.drop k ++ [c],
      redoStack := [],
      currentUndoSize := (((st.undoStack.drop k ++ [c])).map sz).sum } := by
  have hcur2 : (st.redoStack.foldl (fun cur d => cur - sz d)
      (st.currentUndoSize + sz c)) = ((st.undoStack ++ [c]).map sz).sum := by
    rw [foldl_sub_sum, hinv]
    simp only [List.map_append, List.map_cons, List.map_nil, List.sum_append,
      List.sum_cons, List.sum_nil]
    omega
  obtain ⟨k, _, heq⟩ := trimLoop_keeps_last st.maxUndoLevels st.maxUndoSize sz c
    st.undoStack _ hcur2 hml hms
  refine ⟨k, ?_⟩
  simp only [executeCommand, he, if_true]
  rw [heq]

/-- Claim C7 (amended form): for a position `p < getTextLength()` with undo
enabled, exact size accounting, at least one allowed undo level and the
replace command's size within the byte budget, `replaceText(p, n, t)`
followed by a single `undo()` restores the text exactly: the delete half and
the insert half are undone together as one atomic command. -/
theorem C7_replace_single_undo (sz : EditCmd → Nat) (st : EditState)
    (p n : Nat) (t : List Char)
    (he : st.undoEnabled = true)
    (hp : p < st.text.length)
    (hml : 1 ≤ st.maxUndoLevels)
    (hms : sz (.replaceCmd p (ebGetTextAt p n st.text) t) ≤ st.maxUndoSize)
    (hinv : st.currentUndoSize =
      (st.undoStack.map sz).sum + (st.redoStack.map sz).sum) :
    (undoStep sz (applyPubOp sz st (.replaceOp p n t))).text = st.text := by
  have h1 : applyPubOp sz st (.replaceOp p n t) =
      executeCommand sz (.replaceCmd p (ebGetTextAt p n st.text) t) st := by
    simp only [applyPubOp, pubCmd, if_pos hp]
  obtain ⟨k, hk⟩ := executeCommand_keeps_last sz
    (.replaceCmd p (ebGetTextAt p n st.text) t) st he hinv hml hms
  rw [h1, hk, undoStep]
  rw [if_pos (by simp [canUndo, he])]
  simp only [List.getLastD_concat]
  exact replace_inverse st.text t p n hp

/-- Claim C7, counterexample to the claim as stated: with the byte budget at
zero (reachable at runtime through `setMaxUndoSize`), the replace command is
evicted the moment it is recorded, so the single `undo()` is a no-op and the
text stays replaced. -/
theorem C7_counterexample :
    (undoStep (fun _ => (1 : Nat))
      (applyPubOp (fun _ => (1 : Nat))
        ⟨['a', 'b', 'c'], [], [], 1000, 0, 0, true⟩
        (.replaceOp 0 1 ['X']))).text ≠ ['a', 'b', 'c'] := by decide

/-- Claim C7, witness: replace `b` by `XY` in `abc` at position 1, one undo
restores `abc`. -/
theorem C7_replace_single_undo_witness :
    (⟨['a', 'b', 'c'], [], [], 5, 100, 0, true⟩ : EditState).undoEnabled = true ∧
    (1 : Nat) < (['a', 'b', 'c'] : List Char).length ∧
    (undoStep (fun _ => (1 : Nat))
      (applyPubOp (fun _ => (1 : Nat))
        ⟨['a', 'b', 'c'], [], [], 5, 100, 0, true⟩
        (.replaceOp 1 1 ['X', 'Y']))).text = ['a', 'b', 'c'] :=
  ⟨rfl, by decide,
   C7_replace_single_undo (fun _ => (1 : Nat))
     ⟨['a', 'b', 'c'], [], [], 5, 100, 0, true⟩ 1 1 ['X', 'Y']
     (by decide) (by decide) (by decide) (by decide) (by decide)⟩

/-! ### Claim C3: undo-all / redo-all round trip -/

theorem chainF_snoc : ∀ (cs : List EditCmd) (t0 t1 : List Char) (c : EditCmd),
    ChainF t0 cs t1 → undoCmd c (execCmd c t1) = t1 →
    ChainF t0 (cs ++ [c]) (execCmd c t1) := by
  intro cs
  induction cs with
  | nil =>
    intro t0 t1 c h hc
    simp only [ChainF] at h
    subst h
    exact ⟨rfl, hc⟩
  | cons d ds ih =>
    intro t0 t1 c h hc
    simp only [List.cons_append, ChainF] at h ⊢
    exact ⟨ih (execCmd d t0) t1 c h.1 hc, h.2⟩

theorem chainF_snoc_inv : ∀ (cs : List EditCmd) (t0 t2 : List Char) (c : EditCmd),
    ChainF t0 (cs ++ [c]) t2 →
    ChainF t0 cs (undoCmd c t2) ∧ execCmd c (undoCmd c t2) = t2 := by
  intro cs
  induction cs with
  | nil =>
    intro t0 t2 c h
    simp only [List.nil_append, ChainF] at h
    obtain ⟨h1, h2⟩ := h
    subst h1
    constructor
    · simp only [ChainF]
      exact h2.symm
    · rw [h2]
  | cons d ds ih =>
    intro t0 t2 c h
    simp only [List.cons_append, ChainF] at h
    obtain ⟨h1, h2⟩ := h
    obtain ⟨ih1, ih2⟩ := ih (execCmd d t0) t2 c h1
    exact ⟨by simp only [ChainF]; exact ⟨ih1, h2⟩, ih2⟩

/-- The trim loop does nothing when both limits already hold. -/
theorem trimLoop_noop (ml ms : Nat) (sz : EditCmd → Nat) (l : List EditCmd)
    (cur : Nat) (h1 : l.length ≤ ml) (h2 : cur ≤ ms) :
    trimLoop ml ms sz l cur = (l, cur) := by
  cases l with
  | nil => rfl
  | cons c rest =>
    simp only [trimLoop]
    rw [if_neg (by omega)]

/-- `executeCommand` when the pushed stack already satisfies both limits
(starting from an empty redo stack): nothing is evicted. -/
theorem executeCommand_noevict (sz : EditCmd → Nat) (c : EditCmd) (st : EditState)
    (he : st.undoEnabled = true) (hred : st.redoStack = [])
    (hinv : st.currentUndoSize =
      (st.undoStack.map sz).sum + (st.redoStack.map sz).sum)
    (hlen : st.undoStack.length + 1 ≤ st.maxUndoLevels)
    (hsz : (st.undoStack.map sz).sum + sz c ≤ st.maxUndoSize) :
    executeCommand sz c st = { st with
      text := execCmd c st.text,
      undoStack := st.undoStack ++ [c],
      redoStack := [],
      currentUndoSize := ((st.undoStack ++ [c]).map sz).sum } := by
  simp only [executeCommand, he, if_true]
  have hcur2 : (st.redoStack.foldl (fun cur d => cur - sz d)
      (st.currentUndoSize + sz c)) = ((st.undoStack ++ [c]).map sz).sum := by
    rw [hred]
    simp only [List.foldl_nil, List.map_append, List.map_cons, List.map_nil,
      List.sum_append, List.sum_cons, List.sum_nil]
    rw [hinv, hred]
    simp
  have hb1 : (st.undoStack ++ [c]).length ≤ st.maxUndoLevels := by
    simp only [List.length_append, List.length_cons, List.length_nil]
    omega
  have hb2 : ((st.undoStack ++ [c]).map sz).sum ≤ st.maxUndoSize := by
    simp only [List.map_append, List.map_cons, List.map_nil, List.sum_append,
      List.sum_cons, List.sum_nil]
    omega
  rw [hcur2, trimLoop_noop _ _ _ _ _ hb1 hb2]

/-- Running public operations with undo enabled, an empty redo stack, exact
accounting and no eviction preserves all of that and extends the chain
invariant. -/
theorem runOps_chain (sz : EditCmd → Nat) :
    ∀ (ops : List PubOp) (st : EditState) (t0 : List Char),
    st.undoEnabled = true → st.redoStack = [] →
    ChainF t0 st.undoStack st.text →
    st.currentUndoSize =
      (st.undoStack.map sz).sum + (st.redoStack.map sz).sum →
    noEvictOps sz st ops = true →
    (runOps sz st ops).undoEnabled = true ∧
    (runOps sz st ops).redoStack = [] ∧
    ChainF t0 (runOps sz st ops).undoStack (runOps sz st ops).text ∧
    (runOps sz st ops).currentUndoSize =
      (((runOps sz st ops).undoStack.map sz).sum +
       (((runOps sz st ops).redoStack.map sz).sum)) := by
  intro ops
  induction ops with
  | nil =>
    intro st t0 he hred hch hinv _
    exact ⟨he, hred, hch, hinv⟩
  | cons op rest ih =>
    intro st t0 he hred hch hinv hne
    rw [show noEvictOps sz st (op :: rest) =
        ((match pubCmd st op with
          | none => true
          | some c =>
            !st.undoEnabled ||
            (decide (st.undoStack.length + 1 ≤ st.maxUndoLevels) &&
             decide (st.redoStack.foldl (fun cur d => cur - sz d)
                (st.currentUndoSize + sz c) ≤ st.maxUndoSize))) &&
         noEvictOps sz (applyPubOp sz st op) rest) from rfl,
      Bool.and_eq_true] at hne
    obtain ⟨hcheck, hrest⟩ := hne
    have hrun : runOps sz st (op :: rest) = runOps sz (applyPubOp sz st op) rest := by
      simp only [runOps, List.foldl_cons]
    cases hsome : pubCmd st op with
    | none =>
      have happ : applyPubOp sz st op = st := by
        simp only [applyPubOp, hsome]
      rw [hrun, happ]
      rw [happ] at hrest
      exact ih st t0 he hred hch hinv hrest
    | some c =>
      rw [hsome] at hcheck
      simp only [he, Bool.not_true, Bool.false_or, Bool.and_eq_true,
        decide_eq_true_eq] at hcheck
      obtain ⟨hlen, hsz⟩ := hcheck
      rw [hred] at hsz
      simp only [List.foldl_nil] at hsz
      have hsz' : (st.undoStack.map sz).sum + sz c ≤ st.maxUndoSize := by
        rw [hinv, hred] at hsz
        simp only [List.map_nil, List.sum_nil] at hsz
        omega
      have happ : applyPubOp sz st op = executeCommand sz c st := by
        simp only [applyPubOp, hsome]
      have hexec := executeCommand_noevict sz c st he hred hinv hlen hsz'
      have hchain2 : ChainF t0 (st.undoStack ++ [c]) (execCmd c st.text) :=
        chainF_snoc st.undoStack t0 st.text c hch (pubCmd_inverse st op c hsome)
      rw [hrun, happ, hexec]
      rw [happ, hexec] at hrest
      exact ih _ t0 he rfl hchain2 (by simp) hrest

/-- One `undo()` on a nonempty undo stack pops the newest command. -/
theorem undoStep_concat (sz : EditCmd → Nat) (st : EditState)
    (cs : List EditCmd) (c : EditCmd)
    (hu : st.undoStack = cs ++ [c]) (he : st.undoEnabled = true) :
    undoStep sz st = { st with
      text := undoCmd c st.text,
      undoStack := cs,
      redoStack := st.redoStack ++ [c],
      currentUndoSize := st.currentUndoSize - sz c + sz c } := by
  rw [undoStep, if_pos (by simp [canUndo, he, hu])]
  rw [hu]
  simp only [List.getLastD_concat, List.dropLast_concat]

/-- One `redo()` on a nonempty redo stack pops its newest command. -/
theorem redoStep_concat (sz : EditCmd → Nat) (st : EditState)
    (rs : List EditCmd) (c : EditCmd)
    (hr : st.redoStack = rs ++ [c]) (he : st.undoEnabled = true) :
    redoStep sz st = { st with
      text := execCmd c st.text,
      undoStack := st.undoStack ++ [c],
      redoStack := rs,
      currentUndoSize := st.currentUndoSize - sz c + sz c } := by
  rw [redoStep, if_pos (by simp [canRedo, he, hr])]
  rw [hr]
  simp only [List.getLastD_concat, List.dropLast_concat]

/-- Undoing until `canUndo()` is false (fuel bounds the iteration count: each
round pops one entry) empties the undo stack, restores the chain's initial
text, and moves the commands onto the redo stack newest-first. -/
theorem undoAllFuel_spec (sz : EditCmd → Nat) :
    ∀ (fuel : Nat) (cs : List EditCmd) (st : EditState) (t0 : List Char),
    ChainF t0 cs st.text → st.undoStack = cs → st.undoEnabled = true →
    cs.length ≤ fuel →
    (undoAllFuel sz fuel st).text = t0 ∧
    (undoAllFuel sz fuel st).undoStack = [] ∧
    (undoAllFuel sz fuel st).redoStack = st.redoStack ++ cs.reverse ∧
    (undoAllFuel sz fuel st).undoEnabled = true := by
  intro fuel
  induction fuel with
  | zero =>
    intro cs st t0 hch hu he hle
    have hnil : cs = [] := by
      cases cs with
      | nil => rfl
      | cons d ds => simp at hle
    subst hnil
    simp only [ChainF] at hch
    refine ⟨hch.symm, hu, ?_, he⟩
    rw [show undoAllFuel sz 0 st = st from rfl]
    simp
  | succ fuel ih =>
    intro cs st t0 hch hu he hle
    rcases List.eq_nil_or_concat cs with hnil | ⟨cs', c, hcs⟩
    · subst hnil
      simp only [ChainF] at hch
      have hstop : undoAllFuel sz (fuel + 1) st = st := by
        rw [show undoAllFuel sz (fuel + 1) st =
            (if canUndo st then undoAllFuel sz fuel (undoStep sz st) else st)
            from rfl]
        rw [if_neg (by simp [canUndo, hu])]
      rw [hstop]
      exact ⟨hch.symm, hu, by simp, he⟩
    · have hcs' : cs = cs' ++ [c] := by simpa [List.concat_eq_append] using hcs
      subst hcs'
      have hstep := undoStep_concat sz st cs' c hu he
      obtain ⟨hc1, hc2⟩ := chainF_snoc_inv cs' t0 st.text c hch
      have hone : undoAllFuel sz (fuel + 1) st =
          undoAllFuel sz fuel (undoStep sz st) := by
        rw [show undoAllFuel sz (fuel + 1) st =
            (if canUndo st then undoAllFuel sz fuel (undoStep sz st) else st)
            from rfl]
        rw [if_pos (by simp [canUndo, he, hu])]
      have hlen' : cs'.length ≤ fuel := by
        simp only [List.length_append, List.length_cons, List.length_nil] at hle
        omega
      obtain ⟨g1, g2, g3, g4⟩ := ih cs' { st with
          text := undoCmd c st.text,
          undoStack := cs',
          redoStack := st.redoStack ++ [c],
          currentUndoSize := st.currentUndoSize - sz c + sz c } t0 hc1 rfl he hlen'
      rw [hone, hstep]
      refine ⟨g1, g2, ?_, g4⟩
      rw [g3]
      simp [List.reverse_append, List.append_assoc]

/-- Redoing until `canRedo()` is false replays the chain's commands oldest
first and reproduces its final text. -/
theorem redoAllFuel_spec (sz : EditCmd → Nat) :
    ∀ (fuel : Nat) (cs : List EditCmd) (st : EditState) (t0 tF : List Char),
    ChainF t0 cs tF → st.text = t0 → st.redoStack = cs.reverse →
    st.undoEnabled = true → cs.length ≤ fuel →
    (redoAllFuel sz fuel st).text = tF := by
  intro fuel
  induction fuel with
  | zero =>
    intro cs st t0 tF hch ht hr he hle
    have hnil : cs = [] := by
      cases cs with
      | nil => rfl
      | cons d ds => simp at hle
    subst hnil
    simp only [ChainF] at hch
    rw [show redoAllFuel sz 0 st = st from rfl, ht, hch]
  | succ fuel ih =>
    intro cs st t0 tF hch ht hr he hle
    cases cs with
    | nil =>
      simp only [ChainF] at hch
      rw [show redoAllFuel sz (fuel + 1) st =
          (if canRedo st then redoAllFuel sz fuel (redoStep sz st) else st)
          from rfl]
      rw [if_neg (by simp [canRedo, hr])]
      rw [ht, hch]
    | cons c cs' =>
      simp only [ChainF] at hch
      obtain ⟨h1, _⟩ := hch
      have hr' : st.redoStack = cs'.reverse ++ [c] := by
        rw [hr, List.reverse_cons]
      have hstep := redoStep_concat sz st cs'.reverse c hr' he
      rw [show redoAllFuel sz (fuel + 1) st =
          (if canRedo st then redoAllFuel sz fuel (redoStep sz st) else st)
          from rfl]
      rw [if_pos (by simp [canRedo, he, hr'])]
      have hlen' : cs'.length ≤ fuel := by
        simp only [List.length_cons] at hle
        omega
      have hres := ih cs' { st with
          text := execCmd c st.text,
          undoStack := st.undoStack ++ [c],
          redoStack := cs'.reverse,
          currentUndoSize := st.currentUndoSize - sz c + sz c }
        (execCmd c t0) tF h1 (by rw [ht]) rfl he hlen'
      rw [hstep]
      exact hres

/-- Claim C3 (amended form): for every sequence of public editing operations
executed with undo enabled from an initially empty undo/redo history, if no
command is evicted during the sequence, then undoing until `canUndo()` is
false restores the pre-sequence text and redoing until `canRedo()` is false
restores the post-sequence text. -/
theorem C3_undo_redo_roundtrip (sz : EditCmd → Nat) (st : EditState)
    (ops : List PubOp)
    (he : st.undoEnabled = true) (hu : st.undoStack = [])
    (hr : st.redoStack = []) (hcur : st.currentUndoSize = 0)
    (hne : noEvictOps sz st ops = true) :
    (undoAll sz (runOps sz st ops)).text = st.text ∧
    (redoAll sz (undoAll sz (runOps sz st ops))).text =
      (runOps sz st ops).text := by
  have hch0 : ChainF st.text st.undoStack st.text := by
    rw [hu]
    simp only [ChainF]
  have hinv0 : st.currentUndoSize =
      (st.undoStack.map sz).sum + (st.redoStack.map sz).sum := by
    rw [hu, hr, hcur]
    simp
  obtain ⟨he', hr', hch, _⟩ := runOps_chain sz ops st st.text he hr hch0 hinv0 hne
  obtain ⟨g1, g2, g3, g4⟩ := undoAllFuel_spec sz
    (runOps sz st ops).undoStack.length (runOps sz st ops).undoStack
    (runOps sz st ops) st.text hch rfl he' (Nat.le_refl _)
  have hUA : undoAll sz (runOps sz st ops) =
      undoAllFuel sz (runOps sz st ops).undoStack.length (runOps sz st ops) := rfl
  have hredoU : (undoAllFuel sz (runOps sz st ops).undoStack.length
      (runOps sz st ops)).redoStack = (runOps sz st ops).undoStack.reverse := by
    rw [g3, hr']
    simp
  constructor
  · rw [hUA]
    exact g1
  · exact redoAllFuel_spec sz (undoAll sz (runOps sz st ops)).redoStack.length
      (runOps sz st ops).undoStack (undoAll sz (runOps sz st ops)) st.text
      (runOps sz st ops).text hch (by rw [hUA]; exact g1)
      (by rw [hUA]; exact hredoU) (by rw [hUA]; exact g4)
      (by rw [hUA, hredoU]; simp)

/-- Claim C3, counterexample to the claim as stated: with `maxUndoLevels = 1`
the first of two recorded insert commands is evicted, and undoing until
`canUndo()` is false leaves the text of the evicted command applied — not the
pre-sequence text. -/
theorem C3_counterexample :
    (undoAll (fun _ => (1 : Nat))
      (runOps (fun _ => (1 : Nat))
        ⟨[], [], [], 1, 1000, 0, true⟩
        [.insertOp 0 ['a'], .insertOp 1 ['b']])).text ≠ ([] : List Char) := by
  decide

/-- Claim C3, witness: insert `y` then delete `x` on text `x`; undo-all
returns to `x`, redo-all returns to `y`. -/
theorem C3_undo_redo_roundtrip_witness :
    noEvictOps (fun _ => (1 : Nat)) ⟨['x'], [], [], 10, 100, 0, true⟩
      [.insertOp 1 ['y'], .deleteOp 0 1] = true ∧
    (undoAll (fun _ => (1 : Nat))
      (runOps (fun _ => (1 : Nat)) ⟨['x'], [], [], 10, 100, 0, true⟩
        [.insertOp 1 ['y'], .deleteOp 0 1])).text = ['x'] ∧
    (redoAll (fun _ => (1 : Nat))
      (undoAll (fun _ => (1 : Nat))
        (runOps (fun _ => (1 : Nat)) ⟨['x'], [], [], 10, 100, 0, true⟩
          [.insertOp 1 ['y'], .deleteOp 0 1]))).text =
      (runOps (fun _ => (1 : Nat)) ⟨['x'], [], [], 10, 100, 0, true⟩
        [.insertOp 1 ['y'], .deleteOp 0 1]).text :=
  ⟨by decide,
   (C3_undo_redo_roundtrip (fun _ => (1 : Nat)) ⟨['x'], [], [], 10, 100, 0, true⟩
     [.insertOp 1 ['y'], .deleteOp 0 1] rfl rfl rfl rfl (by decide)).1,
   (C3_undo_redo_roundtrip (fun _ => (1 : Nat)) ⟨['x'], [], [], 10, 100, 0, true⟩
     [.insertOp 1 ['y'], .deleteOp 0 1] rfl rfl rfl rfl (by decide)).2⟩

/-! ### Claim C6: renderer commits front to back; second refresh is silent -/

theorem refreshCell_back_length (w : Nat) (front : List Cell) (acc : RefreshState)
    (yx : Nat × Nat) :
    (refreshCell w front acc yx).back.length = acc.back.length := by
  simp only [refreshCell]
  by_cases hfb : front.getD (yx.1 * w + yx.2) blankCell =
      acc.back.getD (yx.1 * w + yx.2) blankCell
  · rw [if_pos hfb]
  · rw [if_neg hfb]
    simp [List.length_set]

theorem refreshCell_agree (w : Nat) (front : List Cell) (acc : RefreshState)
    (yx : Nat × Nat) (idx : Nat)
    (h : acc.back.getD idx blankCell = front.getD idx blankCell) :
    (refreshCell w front acc yx).back.getD idx blankCell =
      front.getD idx blankCell := by
  simp only [refreshCell]
  by_cases hfb : front.getD (yx.1 * w + yx.2) blankCell =
      acc.back.getD (yx.1 * w + yx.2) blankCell
  · rw [if_pos hfb]
    exact h
  · rw [if_neg hfb]
    show (acc.back.set (yx.1 * w + yx.2)
        (front.getD (yx.1 * w + yx.2) blankCell)).getD idx blankCell =
      front.getD idx blankCell
    rw [getD_set]
    by_cases hij : yx.1 * w + yx.2 = idx ∧ yx.1 * w + yx.2 < acc.back.length
    · rw [if_pos hij, hij.1]
    · rw [if_neg hij]
      exact h

theorem refreshCell_sets_own (w : Nat) (front : List Cell) (acc : RefreshState)
    (yx : Nat × Nat) (hidx : yx.1 * w + yx.2 < acc.back.length) :
    (refreshCell w front acc yx).back.getD (yx.1 * w + yx.2) blankCell =
      front.getD (yx.1 * w + yx.2) blankCell := by
  simp only [refreshCell]
  by_cases hfb : front.getD (yx.1 * w + yx.2) blankCell =
      acc.back.getD (yx.1 * w + yx.2) blankCell
  · rw [if_pos hfb]
    exact hfb.symm
  · rw [if_neg hfb]
    show (acc.back.set (yx.1 * w + yx.2)
        (front.getD (yx.1 * w + yx.2) blankCell)).getD (yx.1 * w + yx.2) blankCell =
      front.getD (yx.1 * w + yx.2) blankCell
    rw [getD_set, if_pos ⟨rfl, hidx⟩]

theorem refreshFold_length (w : Nat) (front : List Cell) :
    ∀ (P : List (Nat × Nat)) (acc : RefreshState),
    (P.foldl (refreshCell w front) acc).back.length = acc.back.length := by
  intro P
  induction P with
  | nil => intro acc; rfl
  | cons p Q ih =>
    intro acc
    rw [List.foldl_cons, ih, refreshCell_back_length]

theorem refreshFold_agree (w : Nat) (front : List Cell) :
    ∀ (P : List (Nat × Nat)) (acc : RefreshState) (idx : Nat),
    acc.back.getD idx blankCell = front.getD idx blankCell →
    (P.foldl (refreshCell w front) acc).back.getD idx blankCell =
      front.getD idx blankCell := by
  intro P
  induction P with
  | nil => intro acc idx h; exact h
  | cons p Q ih =>
    intro acc idx h
    rw [List.foldl_cons]
    exact ih _ idx (refreshCell_agree w front acc p idx h)

theorem refreshFold_covers (w : Nat) (front : List Cell) :
    ∀ (P : List (Nat × Nat)) (acc : RefreshState),
    (∀ p ∈ P, p.1 * w + p.2 < acc.back.length) →
    ∀ p ∈ P, (P.foldl (refreshCell w front) acc).back.getD
      (p.1 * w + p.2) blankCell = front.getD (p.1 * w + p.2) blankCell := by
  intro P
  induction P with
  | nil => intro acc _ p hp; cases hp
  | cons q Q ih =>
    intro acc hbnd p hp
    rw [List.foldl_cons]
    cases hp with
    | head =>
      exact refreshFold_agree w front Q _ _
        (refreshCell_sets_own w front acc q (hbnd q (by simp)))
    | tail _ hmem =>
      exact ih (refreshCell w front acc q)
        (fun r hr => by
          rw [refreshCell_back_length]
          exact hbnd r (List.mem_cons_of_mem q hr)) p hmem

theorem idx_lt_grid (y x w h : Nat) (hy : y < h) (hx : x < w) :
    y * w + x < w * h := by
  have h1 : y * w + x < (y + 1) * w := by
    rw [Nat.succ_mul]
    omega
  have h2 : (y + 1) * w ≤ h * w := Nat.mul_le_mul_right w hy
  have h3 : h * w = w * h := Nat.mul_comm h w
  omega

theorem mem_rowMajor (y x h w : Nat) (hy : y < h) (hx : x < w) :
    (y, x) ∈ rowMajor h w := by
  simp only [rowMajor, List.mem_flatMap, List.mem_map, List.mem_range]
  exact ⟨y, hy, x, hx, rfl⟩

theorem refresh_back_eq_front (t : TermState)
    (hf : t.front.length = t.width * t.height)
    (hb : t.back.length = t.width * t.height) :
    (refresh t).back = t.front := by
  have hlen : (refresh t).back.length = t.front.length := by
    show ((rowMajor t.height t.width).foldl (refreshCell t.width t.front)
      ⟨t.back, [.reset], -1, -1, blankCell⟩).back.length = t.front.length
    rw [refreshFold_length]
    rw [hb, hf]
  apply ext_getD _ _ blankCell hlen
  intro i hi
  have hi' : i < t.width * t.height := by
    rw [hlen, hf] at hi
    exact hi
  have hw : 0 < t.width := by
    by_contra hcon
    have : t.width = 0 := by omega
    rw [this] at hi'
    simp at hi'
  have hy : i / t.width < t.height := by
    rw [Nat.div_lt_iff_lt_mul hw]
    rw [Nat.mul_comm] at hi'
    exact hi'
  have hx : i % t.width < t.width := Nat.mod_lt _ hw
  have hdec : (i / t.width) * t.width + i % t.width = i := by
    rw [Nat.mul_comm]
    exact Nat.div_add_mod i t.width
  have hcov := refreshFold_covers t.width t.front (rowMajor t.height t.width)
    ⟨t.back, [.reset], -1, -1, blankCell⟩
    (fun p hp => ?_) (i / t.width, i % t.width)
    (mem_rowMajor _ _ _ _ hy hx)
  case _ =>
    show ((rowMajor t.height t.width).foldl (refreshCell t.width t.front)
        ⟨t.back, [.reset], -1, -1, blankCell⟩).back.getD i blankCell =
      t.front.getD i blankCell
    have := hcov
    simp only at this
    rw [hdec] at this
    exact this
  · simp only [rowMajor, List.mem_flatMap, List.mem_map, List.mem_range] at hp
    obtain ⟨a, ha, b, hbb, hpe⟩ := hp
    show p.1 * t.width + p.2 < t.back.length
    rw [hb, ← hpe]
    exact idx_lt_grid a b t.width t.height ha hbb

theorem refreshCell_id (w : Nat) (front : List Cell) (acc : RefreshState)
    (p : Nat × Nat) (h : acc.back = front) :
    refreshCell w front acc p = acc := by
  simp only [refreshCell]
  rw [if_pos (by rw [h])]

theorem refreshFold_id (w : Nat) (front : List Cell) :
    ∀ (P : List (Nat × Nat)) (acc : RefreshState), acc.back = front →
    P.foldl (refreshCell w front) acc = acc := by
  intro P
  induction P with
  | nil => intro acc _; rfl
  | cons p Q ih =>
    intro acc h
    rw [List.foldl_cons, refreshCell_id w front acc p h]
    exact ih acc h

/-- Claim C6: after `refresh()` the back grid equals the front grid
cell-for-cell, and a second `refresh()` with no intervening writes emits no
output for any cell — its buffer holds only the unconditional reset prefix
that `refresh` always appends before scanning. -/
theorem C6_refresh_minimal (t : TermState)
    (hf : t.front.length = t.width * t.height)
    (hb : t.back.length = t.width * t.height) :
    (refresh t).back = t.front ∧
    (refresh (refresh t)).buf = [OutItem.reset] := by
  have h1 : (refresh t).back = t.front := refresh_back_eq_front t hf hb
  refine ⟨h1, ?_⟩
  show ((rowMajor t.height t.width).foldl (refreshCell t.width t.front)
    ⟨(refresh t).back, [.reset], -1, -1, blankCell⟩).buf = [OutItem.reset]
  rw [refreshFold_id t.width t.front (rowMajor t.height t.width)
    ⟨(refresh t).back, [.reset], -1, -1, blankCell⟩ h1]

/-- Claim C6, witness: a 2-by-1 terminal with one modified front cell. -/
theorem C6_refresh_minimal_witness :
    (⟨2, 1, [⟨65, 1, 0, 0⟩, blankCell], [blankCell, blankCell], []⟩ :
      TermState).front.length = 2 * 1 ∧
    ((refresh ⟨2, 1, [⟨65, 1, 0, 0⟩, blankCell], [blankCell, blankCell], []⟩).back =
      [⟨65, 1, 0, 0⟩, blankCell] ∧
     (refresh (refresh ⟨2, 1, [⟨65, 1, 0, 0⟩, blankCell],
        [blankCell, blankCell], []⟩)).buf = [OutItem.reset]) :=
  ⟨by decide,
   C6_refresh_minimal ⟨2, 1, [⟨65, 1, 0, 0⟩, blankCell], [blankCell, blankCell], []⟩
     (by decide) (by decide)⟩

/-! ### Claim C8: SGR mouse report parsing -/

theorem digitChar_isDig : ∀ d, d < 10 → isDig (digitChar d) = true := by decide

theorem digitChar_val : ∀ d, d < 10 → (digitChar d).toNat - 48 = d := by decide

theorem digitChar_notTerm : ∀ d, d < 10 → isSeqTerm (digitChar d) = false := by decide

theorem natDigits_mem : ∀ n c, c ∈ natDigits n → ∃ d, d < 10 ∧ c = digitChar d := by
  intro n
  induction n using Nat.strong_induction_on with
  | _ n ih =>
    intro c hc
    rw [natDigits] at hc
    by_cases h : n < 10
    · rw [dif_pos h] at hc
      simp only [List.mem_singleton] at hc
      exact ⟨n, h, hc⟩
    · rw [dif_neg h] at hc
      rw [List.mem_append] at hc
      cases hc with
      | inl hm => exact ih (n / 10) (by omega) c hm
      | inr hm =>
        simp only [List.mem_singleton] at hm
        exact ⟨n % 10, by omega, hm⟩

theorem natDigits_ne_nil (n : Nat) : natDigits n ≠ [] := by
  rw [natDigits]
  by_cases h : n < 10
  · rw [dif_pos h]
    simp
  · rw [dif_neg h]
    simp

theorem natDigits_all_isDig (n : Nat) : ∀ c ∈ natDigits n, isDig c = true := by
  intro c hc
  obtain ⟨d, hd, rfl⟩ := natDigits_mem n c hc
  exact digitChar_isDig d hd

theorem natDigits_all_notTerm (n : Nat) : ∀ c ∈ natDigits n, isSeqTerm c = false := by
  intro c hc
  obtain ⟨d, hd, rfl⟩ := natDigits_mem n c hc
  exact digitChar_notTerm d hd

theorem digitsVal_natDigits : ∀ n, digitsVal (natDigits n) = n := by
  intro n
  induction n using Nat.strong_induction_on with
  | _ n ih =>
    rw [natDigits]
    by_cases h : n < 10
    · rw [dif_pos h]
      simp only [digitsVal, List.foldl_cons, List.foldl_nil]
      rw [Nat.mul_zero, Nat.zero_add, digitChar_val n h]
    · rw [dif_neg h]
      simp only [digitsVal, List.foldl_append, List.foldl_cons, List.foldl_nil]
      have hrec := ih (n / 10) (by omega)
      simp only [digitsVal] at hrec
      rw [hrec, digitChar_val (n % 10) (by omega)]
      omega

theorem takeWhile_digits : ∀ (ds rest : List Char), (∀ c ∈ ds, isDig c = true) →
    (rest = [] ∨ ∃ r rs, rest = r :: rs ∧ isDig r = false) →
    (ds ++ rest).takeWhile isDig = ds := by
  intro ds
  induction ds with
  | nil =>
    intro rest _ h2
    rcases h2 with h2 | ⟨r, rs, hre, hrd⟩
    · subst h2
      rfl
    · subst hre
      simp only [List.nil_append]
      rw [List.takeWhile_cons_of_neg (by simp [hrd])]
  | cons d ds ih =>
    intro rest h1 h2
    have hd : isDig d = true := h1 d (by simp)
    simp only [List.cons_append]
    rw [List.takeWhile_cons_of_pos (by simp [hd])]
    rw [ih rest (fun c hc => h1 c (by simp [hc])) h2]

theorem dropWhile_digits : ∀ (ds rest : List Char), (∀ c ∈ ds, isDig c = true) →
    (rest = [] ∨ ∃ r rs, rest = r :: rs ∧ isDig r = false) →
    (ds ++ rest).dropWhile isDig = rest := by
  intro ds
  induction ds with
  | nil =>
    intro rest _ h2
    rcases h2 with h2 | ⟨r, rs, hre, hrd⟩
    · subst h2
      rfl
    · subst hre
      simp only [List.nil_append]
      rw [List.dropWhile_cons_of_neg (by simp [hrd])]
  | cons d ds ih =>
    intro rest h1 h2
    have hd : isDig d = true := h1 d (by simp)
    simp only [List.cons_append]
    rw [List.dropWhile_cons_of_pos (by simp [hd])]
    exact ih rest (fun c hc => h1 c (by simp [hc])) h2

theorem parseDec_natDigits (n : Nat) (rest : List Char)
    (h : rest = [] ∨ ∃ r rs, rest = r :: rs ∧ isDig r = false) :
    parseDec (natDigits n ++ rest) = some (n, rest) := by
  rw [parseDec, List.span_eq_take_drop]
  rw [takeWhile_digits (natDigits n) rest (natDigits_all_isDig n) h]
  rw [dropWhile_digits (natDigits n) rest (natDigits_all_isDig n) h]
  rw [if_neg (natDigits_ne_nil n), digitsVal_natDigits]

theorem scan3_spec (code x y : Nat) :
    scan3 (natDigits code ++ ';' :: (natDigits x ++ ';' :: natDigits y)) =
      some (code, x, y) := by
  have h1 := parseDec_natDigits code (';' :: (natDigits x ++ ';' :: natDigits y))
    (Or.inr ⟨';', _, rfl, by decide⟩)
  have h2 := parseDec_natDigits x (';' :: natDigits y)
    (Or.inr ⟨';', _, rfl, by decide⟩)
  have h3 : parseDec (natDigits y) = some (y, []) := by
    conv_lhs => rw [show natDigits y = natDigits y ++ ([] : List Char) by simp]
    exact parseDec_natDigits y [] (Or.inl rfl)
  simp only [scan3, h1, h2, h3]

theorem getD_append_left {α : Type} : ∀ (a b : List α) (i : Nat) (d : α),
    i < a.length → (a ++ b).getD i d = a.getD i d := by
  intro a
  induction a with
  | nil => intro b i d h; simp at h
  | cons z zs ih =>
    intro b i d h
    cases i with
    | zero => rfl
    | succ j =>
      simp only [List.cons_append, List.getD_cons_succ]
      exact ih b j d (by simpa using h)

theorem getD_append_at_len {α : Type} : ∀ (a b : List α) (d : α),
    (a ++ b).getD a.length d = b.getD 0 d := by
  intro a
  induction a with
  | nil => intro b d; rfl
  | cons z zs ih =>
    intro b d
    simp only [List.cons_append, List.length_cons, List.getD_cons_succ]
    exact ih b d

/-- The escape-extraction scan stops exactly at a final terminator when no
earlier character (from the scan start) terminates. -/
theorem findEscEnd_concat (pre : List Char) (f : Char) :
    ∀ (k i : Nat), pre.length - i = k → i ≤ pre.length →
    (∀ c ∈ pre.drop i, isSeqTerm c = false) → isSeqTerm f = true →
    findEscEnd (pre ++ [f]) i = pre.length + 1 := by
  intro k
  induction k with
  | zero =>
    intro i hk hle hpre hterm
    have hieq : i = pre.length := by omega
    subst hieq
    rw [findEscEnd]
    rw [dif_pos (by simp)]
    rw [getD_append_at_len]
    simp only [List.getD_cons_zero]
    rw [if_pos hterm]
  | succ k ih =>
    intro i hk hle hpre hterm
    have hilt : i < pre.length := by omega
    rw [findEscEnd]
    rw [dif_pos (by simp only [List.length_append, List.length_cons,
      List.length_nil]; omega)]
    have hgi : (pre ++ [f]).getD i ' ' = pre.getD i ' ' :=
      getD_append_left pre [f] i ' ' hilt
    have hmem : pre.getD i ' ' ∈ pre.drop i := by
      rw [drop_cons_getD pre i ' ' hilt]
      simp
    rw [hgi, hpre _ hmem]
    rw [if_neg (by simp)]
    exact ih (i + 1) (by omega) (by omega) (fun c hc => hpre c (by
      rw [drop_cons_getD pre i ' ' hilt]
      simp [hc])) hterm

/-- `find_last_of("Mm")` on a string ending in `M` or `m` finds that final
letter. -/
theorem findLastMm_concat : ∀ (a : List Char) (f : Char),
    f = 'M' ∨ f = 'm' → findLastMm (a ++ [f]) = some a.length := by
  intro a
  induction a with
  | nil =>
    intro f hf
    simp only [List.nil_append, findLastMm]
    rcases hf with hf | hf <;> subst hf <;> rfl
  | cons c rest ih =>
    intro f hf
    simp only [List.cons_append, findLastMm, List.append_eq, ih f hf,
      List.length_cons]

/-- Claim C8: a well-formed SGR mouse report `ESC [ < code ; x ; y` followed
by `M` or `m` parses into a mouse event whose shift/alt/ctrl flags are bits
4/8/16 of `code`, whose coordinates are `(x, y)`, where final letter `m`
yields `Release`, and otherwise code 64 yields `WheelUp`, 65 `WheelDown`,
and for `code < 64` the low two bits select Left/Middle/Right.  The bounds
keep the parsed fields inside C++ `int` range. -/
theorem C8_parse_sgr_mouse (code x y : Nat) (f : Char)
    (hf : f = 'M' ∨ f = 'm')
    (hcb : code < 2 ^ 31) (hxb : x < 2 ^ 31) (hyb : y < 2 ^ 31) :
    (parseSGREvent (mouseInput code x y f)).isMouseEvent = true ∧
    (parseSGREvent (mouseInput code x y f)).shift = decide (code &&& 4 ≠ 0) ∧
    (parseSGREvent (mouseInput code x y f)).alt = decide (code &&& 8 ≠ 0) ∧
    (parseSGREvent (mouseInput code x y f)).ctrl = decide (code &&& 16 ≠ 0) ∧
    (parseSGREvent (mouseInput code x y f)).x = x ∧
    (parseSGREvent (mouseInput code x y f)).y = y ∧
    (f = 'm' →
      (parseSGREvent (mouseInput code x y f)).button = ButtonPressed.Release) ∧
    (f = 'M' → code = 64 →
      (parseSGREvent (mouseInput code x y f)).button = ButtonPressed.WheelUp) ∧
    (f = 'M' → code = 65 →
      (parseSGREvent (mouseInput code x y f)).button = ButtonPressed.WheelDown) ∧
    (f = 'M' → code < 64 →
      (code % 4 = 0 →
        (parseSGREvent (mouseInput code x y f)).button = ButtonPressed.Left) ∧
      (code % 4 = 1 →
        (parseSGREvent (mouseInput code x y f)).button = ButtonPressed.Middle) ∧
      (code % 4 = 2 →
        (parseSGREvent (mouseInput code x y f)).button = ButtonPressed.Right)) := by
  have hfterm : isSeqTerm f = true := by
    rcases hf with h | h <;> subst h <;> decide
  have hBnoterm : ∀ c ∈ natDigits code ++ ';' :: (natDigits x ++ ';' :: natDigits y),
      isSeqTerm c = false := by
    intro c hc
    simp only [List.mem_append, List.mem_cons] at hc
    rcases hc with h | h | h | h | h
    · exact natDigits_all_notTerm code c h
    · subst h; decide
    · exact natDigits_all_notTerm x c h
    · subst h; decide
    · exact natDigits_all_notTerm y c h
  have ha : mouseInput code x y f =
      (escCh :: '[' :: '<' ::
        (natDigits code ++ ';' :: (natDigits x ++ ';' :: natDigits y))) ++ [f] := by
    simp [mouseInput, List.append_assoc]
  have hprelen : (escCh :: '[' :: '<' ::
      (natDigits code ++ ';' :: (natDigits x ++ ';' :: natDigits y))).length =
      (natDigits code ++ ';' :: (natDigits x ++ ';' :: natDigits y)).length + 3 := by
    simp only [List.length_cons]
  have hmlen : (mouseInput code x y f).length =
      (natDigits code ++ ';' :: (natDigits x ++ ';' :: natDigits y)).length + 4 := by
    rw [ha]
    simp only [List.length_append, List.length_cons, List.length_nil]
  have hfE : findEscEnd (mouseInput code x y f) 2 =
      (natDigits code ++ ';' :: (natDigits x ++ ';' :: natDigits y)).length + 4 := by
    rw [ha]
    have h := findEscEnd_concat
      (escCh :: '[' :: '<' :: (natDigits code ++ ';' :: (natDigits x ++ ';' :: natDigits y)))
      f ((escCh :: '[' :: '<' ::
          (natDigits code ++ ';' :: (natDigits x ++ ';' :: natDigits y))).length - 2)
      2 rfl (by rw [hprelen]; omega)
      (by
        intro c hc
        simp only [List.drop_succ_cons, List.drop_zero] at hc
        rcases List.mem_cons.mp hc with h | h
        · subst h; decide
        · exact hBnoterm c h)
      hfterm
    rw [h, hprelen]
  have hlast : findLastMm (mouseInput code x y f) =
      some ((natDigits code ++ ';' :: (natDigits x ++ ';' :: natDigits y)).length + 3) := by
    rw [ha]
    have h := findLastMm_concat
      (escCh :: '[' :: '<' :: (natDigits code ++ ';' :: (natDigits x ++ ';' :: natDigits y)))
      f hf
    rw [h, hprelen]
  have hgetf : (mouseInput code x y f).getD
      ((natDigits code ++ ';' :: (natDigits x ++ ';' :: natDigits y)).length + 3) ' ' = f := by
    rw [ha]
    have h := getD_append_at_len
      (escCh :: '[' :: '<' :: (natDigits code ++ ';' :: (natDigits x ++ ';' :: natDigits y)))
      [f] ' '
    rw [hprelen] at h
    rw [h]
    rfl
  have hdrop3 : (mouseInput code x y f).drop 3 =
      (natDigits code ++ ';' :: (natDigits x ++ ';' :: natDigits y)) ++ [f] := by
    rw [ha]
    simp only [List.cons_append, List.drop_succ_cons, List.drop_zero]
  have htake3 : ((mouseInput code x y f).drop 3).take
      ((natDigits code ++ ';' :: (natDigits x ++ ';' :: natDigits y)).length + 3 - 3) =
      natDigits code ++ ';' :: (natDigits x ++ ';' :: natDigits y) := by
    rw [hdrop3]
    rw [show (natDigits code ++ ';' :: (natDigits x ++ ';' :: natDigits y)).length + 3 - 3 =
      (natDigits code ++ ';' :: (natDigits x ++ ';' :: natDigits y)).length + 0 from by omega]
    rw [take_append_add]
    simp
  have hscan : scan3 (natDigits code ++ ';' :: (natDigits x ++ ';' :: natDigits y)) =
      some (code, x, y) := scan3_spec code x y
  have hne : mouseInput code x y f ≠ [] := by
    rw [ha]
    simp
  have hg0 : (mouseInput code x y f).getD 0 ' ' = escCh := by
    rw [ha]
    rfl
  have htakeall : (mouseInput code x y f).take
      ((natDigits code ++ ';' :: (natDigits x ++ ';' :: natDigits y)).length + 4) =
      mouseInput code x y f := by
    rw [← hmlen]
    exact List.take_length (mouseInput code x y f)
  have htake3pre : (mouseInput code x y f).take 3 = [escCh, '[', '<'] := by
    rw [ha]
    rfl
  have hrel : (if (mouseInput code x y f).getD 0 ' ' = escCh ∧
        3 ≤ (mouseInput code x y f).length then
      if findEscEnd (mouseInput code x y f) 2 ≤ (mouseInput code x y f).length then
        (mouseInput code x y f).take (findEscEnd (mouseInput code x y f) 2)
      else mouseInput code x y f
    else mouseInput code x y f) = mouseInput code x y f := by
    rw [if_pos ⟨hg0, by rw [hmlen]; omega⟩]
    rw [hfE]
    rw [if_pos (by rw [hmlen])]
    rw [htakeall]
  have hev : parseSGREvent (mouseInput code x y f) =
      parseMouse (mouseInput code x y f) (initEvent (mouseInput code x y f)) := by
    simp only [parseSGREvent]
    rw [if_neg hne]
    rw [if_neg (by rw [hg0]; decide)]
    simp only [hrel]
    rw [if_pos ⟨by rw [hmlen]; omega, htake3pre⟩]
  have hmouse : parseMouse (mouseInput code x y f)
      (initEvent (mouseInput code x y f)) =
      { initEvent (mouseInput code x y f) with
          isMouseEvent := true, x := x, y := y,
          shift := decide (code &&& 4 ≠ 0),
          alt := decide (code &&& 8 ≠ 0),
          ctrl := decide (code &&& 16 ≠ 0),
          button :=
            if f = 'm' then .Release
            else if code = 64 then .WheelUp
            else if code = 65 then .WheelDown
            else
              match code &&& 0x03 with
              | 0 => .Left
              | 1 => .Middle
              | 2 => .Right
              | _ => .None,
          wheel :=
            if f = 'm' then 0
            else if code = 64 then 1
            else if code = 65 then -1
            else 0 } := by
    simp only [parseMouse, hlast, hgetf, htake3, hscan]
    repeat' split
    all_goals rfl
  rw [hev, hmouse]
  have hand3 : code &&& 3 = code % 4 := by
    have h := Nat.and_pow_two_sub_one_eq_mod code 2
    norm_num at h
    exact h
  refine ⟨rfl, rfl, rfl, rfl, rfl, rfl, ?_, ?_, ?_, ?_⟩
  · intro hm
    subst hm
    rw [if_pos rfl]
  · intro hM h64
    subst hM
    subst h64
    rw [if_neg (by decide), if_pos rfl]
  · intro hM h65
    subst hM
    subst h65
    rw [if_neg (by decide), if_neg (by decide), if_pos rfl]
  · intro hM hlt
    subst hM
    have h64 : ¬(code = 64) := by omega
    have h65 : ¬(code = 65) := by omega
    rw [if_neg (by decide), if_neg h64, if_neg h65]
    refine ⟨?_, ?_, ?_⟩ <;> intro hmod <;> rw [hand3, hmod]

/-- Claim C8, witness: the report `ESC [ < 0 ; 10 ; 5 M` parses to a left
button press at column 10, row 5 with no modifiers. -/
theorem C8_parse_sgr_mouse_witness :
    (parseSGREvent (mouseInput 0 10 5 'M')).isMouseEvent = true ∧
    (parseSGREvent (mouseInput 0 10 5 'M')).shift = decide ((0 : Nat) &&& 4 ≠ 0) ∧
    (parseSGREvent (mouseInput 0 10 5 'M')).alt = decide ((0 : Nat) &&& 8 ≠ 0) ∧
    (parseSGREvent (mouseInput 0 10 5 'M')).ctrl = decide ((0 : Nat) &&& 16 ≠ 0) ∧
    (parseSGREvent (mouseInput 0 10 5 'M')).x = 10 ∧
    (parseSGREvent (mouseInput 0 10 5 'M')).y = 5 ∧
    ('M' = 'm' →
      (parseSGREvent (mouseInput 0 10 5 'M')).button = ButtonPressed.Release) ∧
    ('M' = 'M' → (0 : Nat) = 64 →
      (parseSGREvent (mouseInput 0 10 5 'M')).button = ButtonPressed.WheelUp) ∧
    ('M' = 'M' → (0 : Nat) = 65 →
      (parseSGREvent (mouseInput 0 10 5 'M')).button = ButtonPressed.WheelDown) ∧
    ('M' = 'M' → (0 : Nat) < 64 →
      ((0 : Nat) % 4 = 0 →
        (parseSGREvent (mouseInput 0 10 5 'M')).button = ButtonPressed.Left) ∧
      ((0 : Nat) % 4 = 1 →
        (parseSGREvent (mouseInput 0 10 5 'M')).button = ButtonPressed.Middle) ∧
      ((0 : Nat) % 4 = 2 →
        (parseSGREvent (mouseInput 0 10 5 'M')).button = ButtonPressed.Right)) :=
  C8_parse_sgr_mouse 0 10 5 'M' (Or.inl rfl) (by norm_num) (by norm_num) (by norm_num)
